import Mathlib

/-!
Verification development for the NBA player co-membership graph analyzer.

The Rust source (src/graph_builder.rs, src/analysis.rs, src/data_loader.rs)
is embedded shallowly:

* `petgraph::Graph<String, usize, Undirected>` becomes `PlayerGraph`: a list
  of node names (node index = list position, matching petgraph's arena of
  integer-indexed nodes) plus a list of edges `(source, target, weight)`.
* The `HashMap`-based grouping of records by `(team, season)` and the
  `node_indices: HashMap<String, NodeIndex>` lookup are embedded as
  association lists processed in first-occurrence order (one fixed
  iteration order of the hash map; every quantity the claims mention is
  insensitive to the group iteration order, being a sum over groups).
* `f64` scores are embedded as exact rationals `ℚ`.
* The `rand::thread_rng` randomness of `compute_shortest_paths` is embedded
  as an explicit finite stream of drawn raw values.
-/

/-- One input row; mirrors `PlayerSeason` of src/data_loader.rs with the
three per-game statistics embedded as rationals (they are never read by the
graph-building or analysis code). -/
structure PlayerSeason where
  player_name : String
  team : String
  season : String
  pts : ℚ
  ast : ℚ
  reb : ℚ
deriving Repr, DecidableEq

/-- The player graph, mirroring `petgraph::Graph<String, usize, Undirected>`:
`nodes` is the arena of node weights (player names) addressed by position,
`edges` holds `(source index, target index, edge weight)` triples in
insertion order. -/
structure PlayerGraph where
  nodes : List String
  edges : List (Nat × Nat × Nat)
deriving Repr, DecidableEq

/-- Lookup of a name in the node arena, mirroring the
`node_indices: HashMap<String, NodeIndex>` map of `build_player_graph`
(that map always holds exactly the names already added, each at its node
index). -/
def lookupIdx : List String → String → Option Nat
  | [], _ => none
  | q :: rest, p => if q = p then some 0 else (lookupIdx rest p).map (· + 1)

/-- `node_indices.entry(p).or_insert_with(|| graph.add_node(p))`: return the
existing index of `p`, or push `p` as a fresh node and return its index. -/
def getOrInsertNode (g : PlayerGraph) (p : String) : PlayerGraph × Nat :=
  match lookupIdx g.nodes p with
  | some i => (g, i)
  | none => ({ g with nodes := g.nodes ++ [p] }, g.nodes.length)

/-- Does edge `e` connect the unordered index pair `{a, b}`?  Mirrors how
`find_edge` on an undirected petgraph matches an edge in either
orientation. -/
def edgeMatches (e : Nat × Nat × Nat) (a b : Nat) : Bool :=
  (e.1 == a && e.2.1 == b) || (e.1 == b && e.2.1 == a)

/-- The body of the inner pairing loop acting on the edge list: if some edge
already connects `{i1, i2}`, increment the first (and, invariantly, only)
such edge's weight (`edge_weight_mut`, `*edge_weight += 1`); otherwise
append a fresh edge of weight 1 (`graph.add_edge(idx1, idx2, 1)`). -/
def addEdgeInc : List (Nat × Nat × Nat) → Nat → Nat → List (Nat × Nat × Nat)
  | [], i1, i2 => [(i1, i2, 1)]
  | e :: rest, i1, i2 =>
      if edgeMatches e i1 i2 then (e.1, e.2.1, e.2.2 + 1) :: rest
      else e :: addEdgeInc rest i1 i2

/-- The inner loop `for j in i+1..player_list.len()`: resolve each later
roster entry to a node and add/bump the edge to the outer player's node
`i1`.  (The write-only `teammates_map` of the source is omitted: it is
never read back into the graph.) -/
def processPairs (g : PlayerGraph) (i1 : Nat) : List String → PlayerGraph
  | [] => g
  | p2 :: rest =>
      let gi := getOrInsertNode g p2
      processPairs { gi.1 with edges := addEdgeInc gi.1.edges i1 gi.2 } i1 rest

/-- The outer loop `for i in 0..player_list.len()` over one roster. -/
def processRoster (g : PlayerGraph) : List String → PlayerGraph
  | [] => g
  | p1 :: rest =>
      let gi := getOrInsertNode g p1
      processRoster (processPairs gi.1 gi.2 rest) rest

/-- `team_season_map.entry((team, season)).or_default().push(name)` on an
association list of groups kept in first-occurrence key order. -/
def insertGroup :
    List ((String × String) × List String) → (String × String) → String →
      List ((String × String) × List String)
  | [], k, n => [(k, [n])]
  | (k', l) :: rest, k, n =>
      if k' = k then (k', l ++ [n]) :: rest else (k', l) :: insertGroup rest k n

/-- Grouping of the input records by `(team, season)`, preserving every
record (duplicate names included) in arrival order within each group. -/
def groupRecords (players : List PlayerSeason) :
    List ((String × String) × List String) :=
  players.foldl (fun m ps => insertGroup m (ps.team, ps.season) ps.player_name) []

/-- `build_player_graph` of src/graph_builder.rs: group the records by
`(team, season)`, then connect every pair of roster *positions* within each
group. -/
def build_player_graph (players : List PlayerSeason) : PlayerGraph :=
  (groupRecords players).foldl (fun g kv => processRoster g kv.2)
    { nodes := [], edges := [] }

/-- The name stored at node index `u` (`graph[u]`); `""` off the arena. -/
def nameAt (g : PlayerGraph) (u : Nat) : String :=
  g.nodes.getD u ""

/-- Total weight of the edges whose endpoint names form the unordered pair
`{a, b}` (with the invariant that at most one edge connects an unordered
pair, this is that edge's weight, or 0 if there is none). -/
def weightBetween (g : PlayerGraph) (a b : String) : Nat :=
  ((g.edges.filter (fun e =>
      (nameAt g e.1 == a && nameAt g e.2.1 == b) ||
      (nameAt g e.1 == b && nameAt g e.2.1 == a))).map (fun e => e.2.2)).sum

/-- Is there any self-loop (an edge whose two endpoints are the same node)? -/
def hasSelfLoop (g : PlayerGraph) : Bool :=
  g.edges.any (fun e => e.1 == e.2.1)

/-- Number of `(team, season)` groups in whose roster both `a` and `b`
occur — the quantity the spec says an edge weight should equal. -/
def coGroups (players : List PlayerSeason) (a b : String) : Nat :=
  (groupRecords players).countP (fun kv => a ∈ kv.2 ∧ b ∈ kv.2)

/-- Shorthand for a record whose statistics are irrelevant. -/
def mkRec (n t s : String) : PlayerSeason :=
  ⟨n, t, s, 0, 0, 0⟩

/-- Sum of the counts stored in a degree histogram. -/
def sumVals (m : List (Nat × Nat)) : Nat :=
  (m.map (fun kv => kv.2)).sum

/-- The same graph with every edge's weight replaced arbitrarily (same
endpoints, same node arena) — used to state that a computation ignores the
stored weights. -/
def mapWeights (g : PlayerGraph) (f : Nat × Nat × Nat → Nat) : PlayerGraph :=
  { nodes := g.nodes, edges := g.edges.map (fun e => (e.1, e.2.1, f e)) }

/-! ## DegreeAnalyzer (`analyze_degrees`) -/

/-- `graph.edges(node).count()`: the number of edges incident to node `u`
(each incident edge counted once, a self-loop included once; the weight
plays no part). -/
def degreeOf (g : PlayerGraph) (u : Nat) : Nat :=
  (g.edges.filter (fun e => e.1 == u || e.2.1 == u)).length

/-- `*degree_count.entry(d).or_insert(0) += 1` on a `HashMap<usize, usize>`
embedded as an association list in key-insertion order. -/
def bump : List (Nat × Nat) → Nat → List (Nat × Nat)
  | [], k => [(k, 1)]
  | (k', v) :: rest, k =>
      if k' = k then (k', v + 1) :: rest else (k', v) :: bump rest k

/-- `analyze_degrees` of src/analysis.rs: histogram of node degrees. -/
def analyze_degrees (g : PlayerGraph) : List (Nat × Nat) :=
  (List.range g.nodes.length).foldl (fun m u => bump m (degreeOf g u)) []

/-- Value stored for key `k` in the histogram (0 when the key is absent). -/
def lookupD : List (Nat × Nat) → Nat → Nat
  | [], _ => 0
  | (k', v) :: rest, k => if k' = k then v else lookupD rest k

/-! ## Unit-cost shortest paths (petgraph `dijkstra` / `astar` with edge
cost 1 and zero heuristic) -/

/-- The neighbors of node `u`: for every incident edge, its other endpoint
(a self-loop contributes `u` itself, parallel edges contribute
repetitions, exactly as petgraph's `neighbors` walks the edge list). -/
def neighbors (g : PlayerGraph) (u : Nat) : List Nat :=
  g.edges.foldr
    (fun e acc =>
      if e.1 == u then e.2.1 :: acc
      else if e.2.1 == u then e.1 :: acc else acc) []

/-- Ball of radius `n` around `s`: every node reachable from `s` by a walk
of length at most `n` (the layered search a unit-cost Dijkstra performs). -/
def reachIn (g : PlayerGraph) (s : Nat) : Nat → Finset Nat
  | 0 => {s}
  | n + 1 =>
      reachIn g s n ∪ (reachIn g s n).biUnion (fun u => (neighbors g u).toFinset)

/-- Least `m` below the bound satisfying `p`, by upward search. -/
def searchFirst (p : Nat → Bool) : Nat → Option Nat
  | 0 => none
  | n + 1 =>
      match searchFirst p n with
      | some m => some m
      | none => if p n then some n else none

/-- The unit-cost distance from `s` to `t`, or `none` when `t` is
unreachable: the least radius whose ball contains `t`, searched up to the
node count (every reachable node is reached within `|V|` steps — proved
below).  This embeds the contract of petgraph's `dijkstra`/`astar` with
every edge cost 1 and a zero heuristic. -/
def distOpt (g : PlayerGraph) (s t : Nat) : Option Nat :=
  searchFirst (fun n => decide (t ∈ reachIn g s n)) (g.nodes.length + 1)

/-- The map `dijkstra(graph, s, None, |_| 1)` returns: every reachable node
paired with its unit-cost distance from `s` (the source itself included at
distance 0), here listed in node-index order. -/
def dijkstraResult (g : PlayerGraph) (s : Nat) : List (Nat × Nat) :=
  (List.range g.nodes.length).filterMap
    (fun t => (distOpt g s t).map (fun d => (t, d)))

/-! ## CentralityEngine (`compute_centrality`) -/

/-- `compute_centrality` of src/analysis.rs: for every node, run the
unit-cost Dijkstra, sum the distances, and score
`(result.len() - 1) / total_distance` when the total is positive, else 0.
The `HashMap<String, f64>` is embedded as the list of (name, score) pairs
in node order (names are unique in every graph the builder produces). -/
def compute_centrality (g : PlayerGraph) : List (String × ℚ) :=
  (List.range g.nodes.length).map (fun s =>
    let result := dijkstraResult g s
    let total := (result.map (fun r => r.2)).sum
    let closeness : ℚ :=
      if 0 < total then ((result.length - 1 : Nat) : ℚ) / (total : ℚ) else 0
    (nameAt g s, closeness))

/-! ## PathSampler (`compute_shortest_paths`) -/

/-- `nodes.choose(&mut rng)` given one raw draw `r` of the random source:
a uniformly chosen element modelled as indexing by `r mod len`; `none` on
an empty list (where the source's `.unwrap()` would panic). -/
def chooseNode (nodes : List Nat) (r : Nat) : Option Nat :=
  nodes.get? (r % nodes.length)

/-- One draw of the rejection sampler: choose `a` and `b` from the raw pair
`(r1, r2)` and accept only if they differ. -/
def acceptPair (nodes : List Nat) (r : Nat × Nat) : Option (Nat × Nat) :=
  match chooseNode nodes r.1, chooseNode nodes r.2 with
  | some a, some b => if a = b then none else some (a, b)
  | _, _ => none

/-- The `while sampled_pairs.len() < 100` rejection loop, consuming an
explicit finite stream of raw draws.  If the stream ends (or a choice from
an empty node list fails, where the source panics) before 100 pairs are
accepted, the partial accumulator is returned — the source loop would
instead keep drawing forever, which is what the theorems below quantify
over. -/
def sampleLoop (nodes : List Nat) :
    List (Nat × Nat) → List (Nat × Nat) → List (Nat × Nat)
  | [], acc => acc
  | r :: rest, acc =>
      if 100 ≤ acc.length then acc
      else
        match chooseNode nodes r.1, chooseNode nodes r.2 with
        | some a, some b =>
            if a = b then sampleLoop nodes rest acc
            else sampleLoop nodes rest (acc ++ [(a, b)])
        | _, _ => acc

/-- `compute_shortest_paths` of src/analysis.rs: sample 100 distinct-member
pairs, run `astar` (unit cost, zero heuristic — i.e. `distOpt`) on each,
and print the mean over the pairs that had a path, or a no-data message.
The printed outcome is embedded as `Option ℚ` (`none` = "No valid paths
found in sample."). -/
def compute_shortest_paths (g : PlayerGraph) (draws : List (Nat × Nat)) :
    Option ℚ :=
  let nodes := List.range g.nodes.length
  let sampled := sampleLoop nodes draws []
  let found := sampled.filterMap (fun p => distOpt g p.1 p.2)
  if 0 < found.length then some ((found.sum : ℚ) / (found.length : ℚ))
  else none

/-! ## SimilarityAnalyzer (`analyze_similarity`) -/

/-- Jaccard similarity of the neighbor sets of nodes `u` and `v`
(`HashSet` intersection and union sizes), 0 when the union is empty. -/
def jaccard (g : PlayerGraph) (u v : Nat) : ℚ :=
  if 0 < ((neighbors g u).toFinset ∪ (neighbors g v).toFinset).card then
    (((neighbors g u).toFinset ∩ (neighbors g v).toFinset).card : ℚ) /
      (((neighbors g u).toFinset ∪ (neighbors g v).toFinset).card : ℚ)
  else 0

/-- The nested loops `for i in 0..n { for j in i+1..n { ... } }`: all index
pairs `(i, j)` with `i < j < n`, enumerated in that canonical order. -/
def pairsList (n : Nat) : List (Nat × Nat) :=
  (List.range n).flatMap (fun i => ((List.range n).drop (i + 1)).map (fun j => (i, j)))

/-- One iteration of the similarity loop body on the state
`(max_sim, most_similar)`: update the state only on a strictly greater
similarity. -/
def simStep (g : PlayerGraph) (st : ℚ × String × String) (p : Nat × Nat) :
    ℚ × String × String :=
  let jac := jaccard g p.1 p.2
  if st.1 < jac then (jac, nameAt g p.1, nameAt g p.2) else st

/-- `analyze_similarity` of src/analysis.rs: fold the loop body over the
canonical pair enumeration, starting from the sentinel state
`(0.0, ("", ""))`.  The printed outcome is embedded as the final state. -/
def analyze_similarity (g : PlayerGraph) : ℚ × String × String :=
  (pairsList g.nodes.length).foldl (simStep g) (0, "", "")

/-! ## Specification-side notions for the GraphBuilder claims -/

/-- The records of one roster all filed under the `(team, season)` key `k`
(the per-game statistics are irrelevant to the builder). -/
def recordsFor (r : List String) (k : String × String) : List PlayerSeason :=
  r.map (fun n => ⟨n, k.1, k.2, 0, 0, 0⟩)

/-- Total weight of the edges of `es` whose endpoint names (under the
name assignment `f`) form the unordered pair `{a, b}`. -/
def wsum (f : Nat → String) (a b : String) : List (Nat × Nat × Nat) → Nat
  | [] => 0
  | e :: rest =>
      (if (f e.1 == a && f e.2.1 == b) || (f e.1 == b && f e.2.1 == a)
       then e.2.2 else 0) + wsum f a b rest

/-- How many position pairs `i < j` of the roster hold the unordered name
pair `{a, b}` — the number of weight increments one roster contributes to
that pair in `build_player_graph`. -/
def pairCnt : List String → String → String → Nat
  | [], _, _ => 0
  | p :: rest, a, b =>
      rest.countP (fun q => (p == a && q == b) || (p == b && q == a)) +
        pairCnt rest a b

/-- No two distinct edges connect the same unordered pair of node indices
(petgraph parallel edges; also rules out duplicate self-loops). -/
def noParallelEdges (g : PlayerGraph) : Prop :=
  g.edges.Pairwise (fun e1 e2 =>
    ¬ ((e1.1 = e2.1 ∧ e1.2.1 = e2.2.1) ∨ (e1.1 = e2.2.1 ∧ e1.2.1 = e2.1)))

/-- Every edge's endpoints are valid node indices. -/
def edgesValid (g : PlayerGraph) : Prop :=
  ∀ e ∈ g.edges, e.1 < g.nodes.length ∧ e.2.1 < g.nodes.length

/-! ## Specification-side notions for the centrality claim -/

/-- Adjacency: some edge connects `u` and `v`, in either orientation. -/
def Adj (g : PlayerGraph) (u v : Nat) : Prop :=
  ∃ e ∈ g.edges, (e.1 = u ∧ e.2.1 = v) ∨ (e.1 = v ∧ e.2.1 = u)

/-- A walk of the given length between two nodes, following edges at unit
cost — the spec's notion behind "reachable" and "distance" for the
closeness computation. -/
inductive Walk (g : PlayerGraph) : Nat → Nat → Nat → Prop
  | nil (u : Nat) : Walk g u u 0
  | cons {u v t n : Nat} : Adj g u v → Walk g v t n → Walk g u t (n + 1)

/-- `t` is reachable from `s`: some walk connects them. -/
def Reachable (g : PlayerGraph) (s t : Nat) : Prop :=
  ∃ n, Walk g s t n

example :
    build_player_graph [mkRec "Alice" "T" "S", mkRec "Alice" "T" "S",
      mkRec "Bob" "T" "S"] =
    ⟨["Alice", "Bob"], [(0, 0, 1), (0, 1, 2)]⟩ := by decide

example :
    build_player_graph (([ "A", "B" ].map (fun n => mkRec n "T" "S")) ++
      ([ "A", "B" ].map (fun n => mkRec n "T" "S"))) =
    ⟨["A", "B"], [(0, 1, 4), (0, 0, 1), (1, 1, 1)]⟩ := by decide

example :
    analyze_degrees (build_player_graph [mkRec "Alice" "Lakers" "2020",
      mkRec "Bob" "Lakers" "2020", mkRec "Alice" "Heat" "2021",
      mkRec "Carol" "Heat" "2021"]) = [(2, 1), (1, 2)] := by decide

unseal Rat.mul Rat.inv Nat.gcd in
example :
    compute_centrality (build_player_graph [mkRec "Alice" "Lakers" "2020",
      mkRec "Bob" "Lakers" "2020", mkRec "Alice" "Heat" "2021",
      mkRec "Carol" "Heat" "2021"]) =
    [("Alice", 1), ("Bob", 2/3), ("Carol", 2/3)] := by decide

unseal Rat.mul Rat.inv Nat.gcd in
example :
    analyze_similarity (build_player_graph [mkRec "Alice" "Lakers" "2020",
      mkRec "Bob" "Lakers" "2020", mkRec "Alice" "Heat" "2021",
      mkRec "Carol" "Heat" "2021"]) = (1, "Bob", "Carol") := by decide

/-! # Helper lemmas -/

theorem lookupD_bump (m : List (Nat × Nat)) (k d : Nat) :
    lookupD (bump m k) d = lookupD m d + (if d = k then 1 else 0) := by
  induction m with
  | nil =>
      simp only [bump, lookupD]
      by_cases h : k = d
      · subst h; simp
      · rw [if_neg h, if_neg (fun h' => h h'.symm), Nat.zero_add]
  | cons kv rest ih =>
      obtain ⟨k', v⟩ := kv
      simp only [bump]
      by_cases h1 : k' = k
      · subst h1
        simp only [if_pos rfl, lookupD]
        by_cases h2 : k' = d
        · subst h2; simp
        · rw [if_neg h2, if_neg h2, if_neg (fun h : d = k' => h2 h.symm),
            Nat.add_zero]
      · rw [if_neg h1]
        simp only [lookupD]
        by_cases h2 : k' = d
        · rw [if_pos h2, if_pos h2,
            if_neg (fun h : d = k => h1 (h2.trans h)), Nat.add_zero]
        · rw [if_neg h2, if_neg h2, ih]

theorem sumVals_bump (m : List (Nat × Nat)) (k : Nat) :
    sumVals (bump m k) = sumVals m + 1 := by
  induction m with
  | nil => simp [bump, sumVals]
  | cons kv rest ih =>
      obtain ⟨k', v⟩ := kv
      simp only [bump]
      by_cases h : k' = k
      · rw [if_pos h]; simp [sumVals]; omega
      · rw [if_neg h]; simp [sumVals] at ih ⊢; omega

theorem foldl_bump_lookup (f : Nat → Nat) (l : List Nat)
    (m : List (Nat × Nat)) (d : Nat) :
    lookupD (l.foldl (fun acc u => bump acc (f u)) m) d =
      lookupD m d + l.countP (fun u => f u == d) := by
  induction l generalizing m with
  | nil => simp [List.countP_nil]
  | cons u rest ih =>
      rw [List.foldl_cons, ih, lookupD_bump, List.countP_cons]
      by_cases h : f u = d <;> simp [h] <;> omega

theorem foldl_bump_sum (f : Nat → Nat) (l : List Nat) (m : List (Nat × Nat)) :
    sumVals (l.foldl (fun acc u => bump acc (f u)) m) =
      sumVals m + l.length := by
  induction l generalizing m with
  | nil => simp
  | cons u rest ih =>
      rw [List.foldl_cons, ih, sumVals_bump]; simp [List.length_cons]; omega

theorem chooseNode_eq_none (nodes : List Nat) (r : Nat) :
    chooseNode nodes r = none ↔ nodes = [] := by
  constructor
  · intro h
    cases nodes with
    | nil => rfl
    | cons x rest =>
        exfalso
        have hlt : r % (x :: rest).length < (x :: rest).length :=
          Nat.mod_lt _ (by simp)
        rw [chooseNode, List.get?_eq_get hlt] at h
        simp at h
  · intro h; subst h; rfl

theorem chooseNode_mem {nodes : List Nat} {r a : Nat}
    (h : chooseNode nodes r = some a) : a ∈ nodes := by
  rw [chooseNode] at h
  exact List.get?_mem h

theorem acceptPair_choose {nodes : List Nat} {r : Nat × Nat} {a b : Nat}
    (h1 : chooseNode nodes r.1 = some a) (h2 : chooseNode nodes r.2 = some b) :
    acceptPair nodes r = if a = b then none else some (a, b) := by
  unfold acceptPair
  rw [h1, h2]

theorem acceptPair_some {nodes : List Nat} {r : Nat × Nat} {p : Nat × Nat}
    (h : acceptPair nodes r = some p) :
    p.1 ≠ p.2 ∧ p.1 ∈ nodes ∧ p.2 ∈ nodes := by
  unfold acceptPair at h
  cases h1 : chooseNode nodes r.1 with
  | none => rw [h1] at h; dsimp only at h; exact Option.noConfusion h
  | some a =>
      rw [h1] at h
      cases h2 : chooseNode nodes r.2 with
      | none => rw [h2] at h; dsimp only at h; exact Option.noConfusion h
      | some b =>
          rw [h2] at h
          dsimp only at h
          by_cases hab : a = b
          · rw [if_pos hab] at h; exact Option.noConfusion h
          · rw [if_neg hab] at h
            injection h with h'
            subst h'
            exact ⟨hab, chooseNode_mem h1, chooseNode_mem h2⟩

theorem acceptPair_nil (r : Nat × Nat) : acceptPair [] r = none := by
  rfl

theorem sampleLoop_nil_nodes (draws : List (Nat × Nat))
    (acc : List (Nat × Nat)) : sampleLoop [] draws acc = acc := by
  cases draws with
  | nil => rfl
  | cons r rest =>
      unfold sampleLoop
      by_cases h : 100 ≤ acc.length
      · rw [if_pos h]
      · rw [if_neg h]; rfl

theorem sampleLoop_singleton (x : Nat) (draws : List (Nat × Nat))
    (acc : List (Nat × Nat)) : sampleLoop [x] draws acc = acc := by
  induction draws with
  | nil => rfl
  | cons r rest ih =>
      unfold sampleLoop
      by_cases h : 100 ≤ acc.length
      · rw [if_pos h]
      · rw [if_neg h]
        have hc : ∀ s : Nat, chooseNode [x] s = some x := by
          intro s; rw [chooseNode]; simp [Nat.mod_one]
        rw [hc r.1, hc r.2]
        dsimp only
        rw [if_pos rfl]
        exact ih

theorem sampleLoop_eq_take (nodes : List Nat) (draws : List (Nat × Nat)) :
    ∀ acc, sampleLoop nodes draws acc =
      acc ++ (draws.filterMap (acceptPair nodes)).take (100 - acc.length) := by
  induction draws with
  | nil => intro acc; simp [sampleLoop]
  | cons r rest ih =>
      intro acc
      unfold sampleLoop
      by_cases hlen : 100 ≤ acc.length
      · rw [if_pos hlen, Nat.sub_eq_zero_of_le hlen]
        simp
      · rw [if_neg hlen]
        cases h1 : chooseNode nodes r.1 with
        | none =>
            have hn : nodes = [] := (chooseNode_eq_none _ _).mp h1
            subst hn
            dsimp only
            rw [show (r :: rest).filterMap (acceptPair []) = ([] : List (Nat × Nat)) by
              simp [acceptPair_nil]]
            simp
        | some a =>
            cases h2 : chooseNode nodes r.2 with
            | none =>
                have hn : nodes = [] := (chooseNode_eq_none _ _).mp h2
                subst hn
                rw [chooseNode] at h1
                simp at h1
            | some b =>
                dsimp only
                by_cases hab : a = b
                · have hnone : acceptPair nodes r = none := by
                    rw [acceptPair_choose h1 h2, if_pos hab]
                  rw [if_pos hab, List.filterMap_cons_none hnone]
                  exact ih acc
                · have hsome : acceptPair nodes r = some (a, b) := by
                    rw [acceptPair_choose h1 h2, if_neg hab]
                  rw [if_neg hab, List.filterMap_cons_some hsome]
                  rw [ih (acc ++ [(a, b)])]
                  have hstep : 100 - acc.length =
                      (100 - (acc ++ [(a, b)]).length) + 1 := by
                    simp [List.length_append]; omega
                  rw [hstep, List.take_succ_cons, List.append_assoc]
                  rfl

theorem drop_range (m n : Nat) :
    (List.range n).drop m = List.range' m (n - m) := by
  by_cases h : m ≤ n
  · rw [List.range_eq_range']
    have hsplit : List.range' 0 n =
        List.range' 0 m ++ List.range' (0 + m) (n - m) := by
      rw [List.range'_append_1]
      congr 1
      omega
    rw [hsplit, Nat.zero_add]
    exact List.drop_left' (by simp)
  · have h1 : n - m = 0 := by omega
    rw [h1, List.range'_zero]
    exact List.drop_eq_nil_of_le (by rw [List.length_range]; omega)

theorem mem_pairsList {n : Nat} {p : Nat × Nat} :
    p ∈ pairsList n ↔ p.1 < p.2 ∧ p.2 < n := by
  unfold pairsList
  rw [List.mem_flatMap]
  constructor
  · rintro ⟨i, hi, hp⟩
    rw [List.mem_map] at hp
    obtain ⟨j, hj, rfl⟩ := hp
    rw [drop_range, List.mem_range'_1] at hj
    rw [List.mem_range] at hi
    exact ⟨by omega, by omega⟩
  · rintro ⟨h1, h2⟩
    refine ⟨p.1, List.mem_range.mpr (by omega), ?_⟩
    rw [List.mem_map]
    refine ⟨p.2, ?_, rfl⟩
    rw [drop_range, List.mem_range'_1]
    omega

/-! # Claim theorems -/

/-- C1: the claim states that `build_player_graph` never creates a
self-loop because equal resolved node identities are rejected before edge
creation, and that the roster `[Alice, Alice, Bob]` yields exactly one
Alice–Bob edge.  The code has no such guard: on that roster it creates a
self-loop on Alice (weight 1) and gives the Alice–Bob edge weight 2. -/
theorem build_self_loop_failing_input :
    hasSelfLoop (build_player_graph
      [mkRec "Alice" "T" "S", mkRec "Alice" "T" "S", mkRec "Bob" "T" "S"]) =
        true ∧
    weightBetween (build_player_graph
      [mkRec "Alice" "T" "S", mkRec "Alice" "T" "S", mkRec "Bob" "T" "S"])
        "Alice" "Alice" = 1 ∧
    weightBetween (build_player_graph
      [mkRec "Alice" "T" "S", mkRec "Alice" "T" "S", mkRec "Bob" "T" "S"])
        "Alice" "Bob" = 2 := by
  refine ⟨?_, ?_, ?_⟩ <;> decide

/-- C3: the claim states that the weight of edge a–b equals the number of
`(team, season)` groups in which both players co-occurred.  On the roster
`[Alice, Alice, Bob]` (one single group) the code gives the Alice–Bob edge
weight 2 — one increment per *position* pair — while the number of groups
in which the two co-occur is 1. -/
theorem edge_weight_not_group_count_failing_input :
    coGroups [mkRec "Alice" "T" "S", mkRec "Alice" "T" "S",
        mkRec "Bob" "T" "S"] "Alice" "Bob" = 1 ∧
    weightBetween (build_player_graph
      [mkRec "Alice" "T" "S", mkRec "Alice" "T" "S", mkRec "Bob" "T" "S"])
        "Alice" "Bob" = 2 := by
  refine ⟨?_, ?_⟩ <;> decide

/-- C2: the claim states that on a graph with fewer than 2 nodes the
sampling loop of `compute_shortest_paths` terminates immediately with the
"no data" sentinel.  In the code there is no such guard: the accepted-pair
accumulator provably stays empty under every possible draw stream, so the
`while sampled_pairs.len() < 100` loop never meets its exit condition — it
spins forever on a 1-node graph (and panics on an empty one). -/
theorem path_sampler_small_graph_loop_starves (g : PlayerGraph)
    (h : g.nodes.length < 2) (draws : List (Nat × Nat)) :
    (sampleLoop (List.range g.nodes.length) draws []).length = 0 := by
  have h01 : g.nodes.length = 0 ∨ g.nodes.length = 1 := by omega
  rcases h01 with h0 | h0 <;> rw [h0]
  · rw [show List.range 0 = ([] : List Nat) from rfl, sampleLoop_nil_nodes]
    rfl
  · rw [show List.range 1 = [0] from rfl, sampleLoop_singleton]
    rfl

/-- Witness for C2 at a concrete 1-node graph and a concrete draw stream. -/
theorem path_sampler_small_graph_loop_starves_witness :
    (PlayerGraph.mk ["Alice"] []).nodes.length < 2 ∧
    (sampleLoop (List.range (PlayerGraph.mk ["Alice"] []).nodes.length)
      [(0, 0), (7, 9), (3, 3)] []).length = 0 :=
  ⟨by decide,
   path_sampler_small_graph_loop_starves (PlayerGraph.mk ["Alice"] [])
     (by decide) [(0, 0), (7, 9), (3, 3)]⟩

/-- C10: on a draw stream that yields at least 100 accepted draws (possible
whenever the graph has at least two nodes), the sampling loop of
`compute_shortest_paths` accepts exactly 100 pairs — the first 100 accepted
draws, taken with replacement so the same pair may recur — and every
accepted pair consists of two distinct valid node indices.  The size 100
is a literal of the code, not a parameter. -/
theorem path_sampler_accepts_exactly_100 (g : PlayerGraph)
    (h2 : 2 ≤ g.nodes.length) (draws : List (Nat × Nat))
    (hd : 100 ≤
      (draws.filterMap (acceptPair (List.range g.nodes.length))).length) :
    (sampleLoop (List.range g.nodes.length) draws []).length = 100 ∧
    (∀ p ∈ sampleLoop (List.range g.nodes.length) draws [],
        p.1 ≠ p.2 ∧ p.1 < g.nodes.length ∧ p.2 < g.nodes.length) ∧
    sampleLoop (List.range g.nodes.length) draws [] =
      (draws.filterMap (acceptPair (List.range g.nodes.length))).take 100 := by
  have he := sampleLoop_eq_take (List.range g.nodes.length) draws []
  rw [List.nil_append] at he
  have he' : sampleLoop (List.range g.nodes.length) draws [] =
      (draws.filterMap (acceptPair (List.range g.nodes.length))).take 100 := by
    rw [he]; rfl
  refine ⟨?_, ?_, he'⟩
  · rw [he', List.length_take]
    omega
  · intro p hp
    rw [he'] at hp
    have hp' := List.mem_of_mem_take hp
    rw [List.mem_filterMap] at hp'
    obtain ⟨r, _, hr⟩ := hp'
    obtain ⟨hne, hm1, hm2⟩ := acceptPair_some hr
    rw [List.mem_range] at hm1 hm2
    exact ⟨hne, hm1, hm2⟩

/-- Witness for C10: a 2-node graph and a stream of 100 draws that all
map to the accepted pair (0, 1). -/
theorem path_sampler_accepts_exactly_100_witness :
    2 ≤ (PlayerGraph.mk ["A", "B"] []).nodes.length ∧
    100 ≤ ((List.replicate 100 ((0 : Nat), (1 : Nat))).filterMap
      (acceptPair (List.range (PlayerGraph.mk ["A", "B"] []).nodes.length))).length ∧
    ((sampleLoop (List.range (PlayerGraph.mk ["A", "B"] []).nodes.length)
        (List.replicate 100 ((0 : Nat), (1 : Nat))) []).length = 100 ∧
      (∀ p ∈ sampleLoop (List.range (PlayerGraph.mk ["A", "B"] []).nodes.length)
          (List.replicate 100 ((0 : Nat), (1 : Nat))) [],
          p.1 ≠ p.2 ∧ p.1 < (PlayerGraph.mk ["A", "B"] []).nodes.length ∧
            p.2 < (PlayerGraph.mk ["A", "B"] []).nodes.length) ∧
      sampleLoop (List.range (PlayerGraph.mk ["A", "B"] []).nodes.length)
          (List.replicate 100 ((0 : Nat), (1 : Nat))) [] =
        ((List.replicate 100 ((0 : Nat), (1 : Nat))).filterMap
          (acceptPair (List.range (PlayerGraph.mk ["A", "B"] []).nodes.length))).take
          100) :=
  ⟨by decide, by decide,
   path_sampler_accepts_exactly_100 (PlayerGraph.mk ["A", "B"] [])
     (by decide) (List.replicate 100 ((0 : Nat), (1 : Nat))) (by decide)⟩

/-- C7: on a graph with fewer than two nodes, `analyze_similarity` reports
the "no pair" sentinel — the initial state `(0.0, ("", ""))` — because the
pair loops never execute. -/
theorem analyze_similarity_no_pair_sentinel (g : PlayerGraph)
    (h : g.nodes.length < 2) :
    analyze_similarity g = (0, "", "") := by
  have h01 : g.nodes.length = 0 ∨ g.nodes.length = 1 := by omega
  have hp : pairsList g.nodes.length = [] := by
    rcases h01 with h0 | h0 <;> rw [h0] <;> rfl
  unfold analyze_similarity
  rw [hp]
  rfl

/-- Witness for C7 at a concrete single-node graph. -/
theorem analyze_similarity_no_pair_sentinel_witness :
    (PlayerGraph.mk ["Alice"] []).nodes.length < 2 ∧
    analyze_similarity (PlayerGraph.mk ["Alice"] []) = (0, "", "") :=
  ⟨by decide,
   analyze_similarity_no_pair_sentinel (PlayerGraph.mk ["Alice"] []) (by decide)⟩

/-- C9: when no pair of distinct nodes has Jaccard similarity strictly
greater than 0, the strict-improvement update `jaccard > max_sim` never
fires, so `analyze_similarity` returns its initial sentinel
`(0.0, ("", ""))` — not any real pair of nodes. -/
theorem analyze_similarity_all_zero_keeps_sentinel (g : PlayerGraph)
    (h2 : 2 ≤ g.nodes.length)
    (h0 : ∀ i j, i < j → j < g.nodes.length → ¬ (0 < jaccard g i j)) :
    analyze_similarity g = (0, "", "") := by
  unfold analyze_similarity
  have key : ∀ L : List (Nat × Nat),
      (∀ p ∈ L, ¬ (0 < jaccard g p.1 p.2)) →
      L.foldl (simStep g) (0, "", "") = (0, "", "") := by
    intro L
    induction L with
    | nil => intro _; rfl
    | cons p rest ih =>
        intro hL
        rw [List.foldl_cons]
        have hstep : simStep g (0, "", "") p = (0, "", "") := by
          unfold simStep
          rw [if_neg (hL p (List.mem_cons_self _ _))]
        rw [hstep]
        exact ih (fun q hq => hL q (List.mem_cons_of_mem _ hq))
  apply key
  intro p hp
  obtain ⟨hij, hjn⟩ := mem_pairsList.mp hp
  exact h0 p.1 p.2 hij hjn

/-- Witness for C9 at a graph with two isolated nodes. -/
theorem analyze_similarity_all_zero_keeps_sentinel_witness :
    2 ≤ (PlayerGraph.mk ["A", "B"] []).nodes.length ∧
    analyze_similarity (PlayerGraph.mk ["A", "B"] []) = (0, "", "") :=
  ⟨by decide,
   analyze_similarity_all_zero_keeps_sentinel (PlayerGraph.mk ["A", "B"] [])
     (by decide)
     (by
       intro i j _ _
       have hj : jaccard (PlayerGraph.mk ["A", "B"] []) i j = 0 := by
         unfold jaccard neighbors
         simp
       rw [hj]
       simp)⟩

/-- C8: the degree histogram maps each degree `d` to the number of nodes
whose incident-edge count is `d`; its counts sum to the node count; the
empty graph yields the empty mapping; and replacing every edge weight
arbitrarily leaves the histogram unchanged (weights never affect degree). -/
theorem analyze_degrees_histogram_spec (g : PlayerGraph) :
    (∀ d, lookupD (analyze_degrees g) d =
        (List.range g.nodes.length).countP (fun u => degreeOf g u == d)) ∧
    sumVals (analyze_degrees g) = g.nodes.length ∧
    analyze_degrees (PlayerGraph.mk [] []) = [] ∧
    (∀ f : Nat × Nat × Nat → Nat,
        analyze_degrees (mapWeights g f) = analyze_degrees g) := by
  refine ⟨?_, ?_, rfl, ?_⟩
  · intro d
    unfold analyze_degrees
    rw [foldl_bump_lookup]
    simp [lookupD]
  · unfold analyze_degrees
    rw [foldl_bump_sum]
    simp [sumVals]
  · intro f
    have hdeg : ∀ u, degreeOf (mapWeights g f) u = degreeOf g u := by
      intro u
      unfold degreeOf mapWeights
      rw [List.filter_map, List.length_map]
      congr 1
    have hfun : (fun (m : List (Nat × Nat)) (u : Nat) =>
        bump m (degreeOf (mapWeights g f) u)) =
        (fun (m : List (Nat × Nat)) (u : Nat) => bump m (degreeOf g u)) := by
      funext m u
      rw [hdeg]
    unfold analyze_degrees
    rw [show (mapWeights g f).nodes = g.nodes from rfl, hfun]

theorem simFold_no_improve (g : PlayerGraph) (L : List (Nat × Nat))
    (s : ℚ × String × String)
    (hL : ∀ p ∈ L, jaccard g p.1 p.2 ≤ s.1) :
    L.foldl (simStep g) s = s := by
  induction L with
  | nil => rfl
  | cons p rest ih =>
      rw [List.foldl_cons]
      have hstep : simStep g s p = s := by
        unfold simStep
        rw [if_neg (not_lt.mpr (hL p (List.mem_cons_self _ _)))]
      rw [hstep]
      exact ih (fun q hq => hL q (List.mem_cons_of_mem _ hq))

theorem simFold_first_max (g : PlayerGraph) (L : List (Nat × Nat)) :
    ∀ s : ℚ × String × String,
      (∃ p ∈ L, s.1 < jaccard g p.1 p.2) →
      ∃ pre p suf, L = pre ++ p :: suf ∧
        (∀ q ∈ pre, jaccard g q.1 q.2 < jaccard g p.1 p.2) ∧
        (∀ q ∈ L, jaccard g q.1 q.2 ≤ jaccard g p.1 p.2) ∧
        s.1 < jaccard g p.1 p.2 ∧
        L.foldl (simStep g) s =
          (jaccard g p.1 p.2, nameAt g p.1, nameAt g p.2) := by
  induction L with
  | nil => intro s hex; simp at hex
  | cons q rest ih =>
      intro s hex
      rw [List.foldl_cons]
      by_cases hq : s.1 < jaccard g q.1 q.2
      · have hst : simStep g s q =
            (jaccard g q.1 q.2, nameAt g q.1, nameAt g q.2) := by
          unfold simStep
          rw [if_pos hq]
        by_cases hall : ∀ r ∈ rest, jaccard g r.1 r.2 ≤ jaccard g q.1 q.2
        · refine ⟨[], q, rest, rfl, ?_, ?_, hq, ?_⟩
          · intro q' hq'; simp at hq'
          · intro q' hq'
            rcases List.mem_cons.mp hq' with h | h
            · subst h; exact le_refl _
            · exact hall q' h
          · rw [hst]
            exact simFold_no_improve g rest _ (fun r hr => hall r hr)
        · push_neg at hall
          obtain ⟨r, hrmem, hrgt⟩ := hall
          have hex' : ∃ p ∈ rest, (simStep g s q).1 < jaccard g p.1 p.2 := by
            refine ⟨r, hrmem, ?_⟩
            rw [hst]
            exact hrgt
          obtain ⟨pre', p, suf, hdec, hpre, hle, hlt, hres⟩ :=
            ih (simStep g s q) hex'
          rw [hst] at hlt
          refine ⟨q :: pre', p, suf, by rw [hdec, List.cons_append], ?_, ?_, lt_trans hq hlt, hres⟩
          · intro q' hq'
            rcases List.mem_cons.mp hq' with h | h
            · subst h; exact hlt
            · exact hpre q' h
          · intro q' hq'
            rcases List.mem_cons.mp hq' with h | h
            · subst h; exact le_of_lt hlt
            · exact hle q' h
      · have hst : simStep g s q = s := by
          unfold simStep
          rw [if_neg hq]
        have hex' : ∃ p ∈ rest, s.1 < jaccard g p.1 p.2 := by
          obtain ⟨p0, hp0, hlt0⟩ := hex
          rcases List.mem_cons.mp hp0 with h | h
          · subst h; exact absurd hlt0 hq
          · exact ⟨p0, h, hlt0⟩
        obtain ⟨pre', p, suf, hdec, hpre, hle, hlt, hres⟩ := ih s hex'
        have hqle : jaccard g q.1 q.2 ≤ s.1 := not_lt.mp hq
        refine ⟨q :: pre', p, suf, by rw [hdec, List.cons_append], ?_, ?_, hlt, ?_⟩
        · intro q' hq'
          rcases List.mem_cons.mp hq' with h | h
          · subst h; exact lt_of_le_of_lt hqle hlt
          · exact hpre q' h
        · intro q' hq'
          rcases List.mem_cons.mp hq' with h | h
          · subst h; exact le_of_lt (lt_of_le_of_lt hqle hlt)
          · exact hle q' h
        · rw [hst]
          exact hres

theorem pairsList_pairwise_lex (n : Nat) :
    (pairsList n).Pairwise
      (fun p q : Nat × Nat => p.1 < q.1 ∨ (p.1 = q.1 ∧ p.2 < q.2)) := by
  unfold pairsList
  rw [List.pairwise_flatMap]
  constructor
  · intro i _
    rw [List.pairwise_map, drop_range]
    refine (List.pairwise_lt_range' _ _).imp ?_
    intro a b hab
    exact Or.inr ⟨rfl, hab⟩
  · refine (List.pairwise_lt_range n).imp ?_
    intro i1 i2 h12 x hx y hy
    rw [List.mem_map] at hx hy
    obtain ⟨j1, _, rfl⟩ := hx
    obtain ⟨j2, _, rfl⟩ := hy
    exact Or.inl h12

/-- C5: `analyze_similarity` is deterministic with a canonical tie-break.
The node enumeration of the source (`graph.node_indices()`) is the fixed
ascending index order, so the nested `i < j` loops enumerate unordered
pairs in the canonical lexicographic order of (sorted) node indices.
Either no pair has positive similarity — then the sentinel is reported —
or the reported pair is exactly the lexicographically first pair attaining
the maximal Jaccard similarity.  Both outcomes are functions of the graph
alone, so any two runs over the same graph report the same pair. -/
theorem analyze_similarity_first_max_canonical (g : PlayerGraph) :
    ((∀ q : Nat × Nat, q.1 < q.2 → q.2 < g.nodes.length →
        jaccard g q.1 q.2 ≤ 0) ∧ analyze_similarity g = (0, "", "")) ∨
    (∃ p : Nat × Nat, p.1 < p.2 ∧ p.2 < g.nodes.length ∧
        0 < jaccard g p.1 p.2 ∧
        (∀ q : Nat × Nat, q.1 < q.2 → q.2 < g.nodes.length →
          jaccard g q.1 q.2 ≤ jaccard g p.1 p.2) ∧
        (∀ q : Nat × Nat, q.1 < q.2 → q.2 < g.nodes.length →
          jaccard g q.1 q.2 = jaccard g p.1 p.2 →
          p.1 < q.1 ∨ (p.1 = q.1 ∧ p.2 ≤ q.2)) ∧
        analyze_similarity g =
          (jaccard g p.1 p.2, nameAt g p.1, nameAt g p.2)) := by
  by_cases hex : ∃ p ∈ pairsList g.nodes.length, 0 < jaccard g p.1 p.2
  · right
    have hex' : ∃ p ∈ pairsList g.nodes.length,
        ((0 : ℚ), ("" : String), ("" : String)).1 < jaccard g p.1 p.2 := hex
    obtain ⟨pre, p, suf, hdec, hpre, hle, hlt, hres⟩ :=
      simFold_first_max g (pairsList g.nodes.length) (0, "", "") hex'
    have hpmem : p ∈ pairsList g.nodes.length := by
      rw [hdec]
      exact List.mem_append_right _ (List.mem_cons_self _ _)
    obtain ⟨hp12, hp2n⟩ := mem_pairsList.mp hpmem
    refine ⟨p, hp12, hp2n, hlt, ?_, ?_, ?_⟩
    · intro q h1 h2
      exact hle q (mem_pairsList.mpr ⟨h1, h2⟩)
    · intro q h1 h2 heq
      have hqmem : q ∈ pairsList g.nodes.length := mem_pairsList.mpr ⟨h1, h2⟩
      rw [hdec] at hqmem
      rcases List.mem_append.mp hqmem with hq | hq
      · exact absurd heq (ne_of_lt (hpre q hq))
      · rcases List.mem_cons.mp hq with hq' | hq'
        · rw [hq']
          exact Or.inr ⟨rfl, le_refl _⟩
        · have hpw := pairsList_pairwise_lex g.nodes.length
          rw [hdec] at hpw
          have hps := (List.pairwise_append.mp hpw).2.1
          have hrel := (List.pairwise_cons.mp hps).1 q hq'
          rcases hrel with h | ⟨heq1, hlt2⟩
          · exact Or.inl h
          · exact Or.inr ⟨heq1, le_of_lt hlt2⟩
    · unfold analyze_similarity
      exact hres
  · left
    push_neg at hex
    constructor
    · intro q h1 h2
      exact hex q (mem_pairsList.mpr ⟨h1, h2⟩)
    · unfold analyze_similarity
      exact simFold_no_improve g _ _ (fun p hp => hex p hp)

/-! # GraphBuilder invariants (for the duplication claim) -/

theorem lookupIdx_some_get {l : List String} {p : String} {i : Nat}
    (h : lookupIdx l p = some i) : l.get? i = some p := by
  induction l generalizing i with
  | nil => simp [lookupIdx] at h
  | cons q rest ih =>
      rw [lookupIdx] at h
      by_cases hq : q = p
      · rw [if_pos hq] at h
        injection h with h'
        subst h'
        rw [hq]
        rfl
      · rw [if_neg hq] at h
        cases hrec : lookupIdx rest p with
        | none => rw [hrec] at h; simp at h
        | some j =>
            rw [hrec] at h
            simp at h
            subst h
            simpa using ih hrec

theorem lookupIdx_none_iff {l : List String} {p : String} :
    lookupIdx l p = none ↔ p ∉ l := by
  induction l with
  | nil => simp [lookupIdx]
  | cons q rest ih =>
      rw [lookupIdx]
      by_cases hq : q = p
      · simp [if_pos hq, hq]
      · rw [if_neg hq]
        simp [Option.map_eq_none', ih, hq]
        intro h
        exact fun h' => hq h'.symm

theorem lookupIdx_some_lt {l : List String} {p : String} {i : Nat}
    (h : lookupIdx l p = some i) : i < l.length := by
  have := lookupIdx_some_get h
  exact List.get?_eq_some.mp this |>.1

theorem lookupIdx_append_some {l l2 : List String} {p : String} {i : Nat}
    (h : lookupIdx l p = some i) : lookupIdx (l ++ l2) p = some i := by
  induction l generalizing i with
  | nil => simp [lookupIdx] at h
  | cons q rest ih =>
      rw [List.cons_append]
      rw [lookupIdx] at h ⊢
      by_cases hq : q = p
      · rw [if_pos hq] at h ⊢; exact h
      · rw [if_neg hq] at h ⊢
        cases hrec : lookupIdx rest p with
        | none => rw [hrec] at h; simp at h
        | some j =>
            rw [hrec] at h
            rw [ih hrec]
            exact h

theorem getD_append_left (l l2 : List String) (n : Nat) (d : String)
    (h : n < l.length) : (l ++ l2).getD n d = l.getD n d := by
  induction l generalizing n with
  | nil => simp at h
  | cons x rest ih =>
      cases n with
      | zero => simp [List.getD_cons_zero]
      | succ m =>
          simp only [List.cons_append, List.getD_cons_succ]
          exact ih m (by simpa using h)

theorem getD_append_length (l : List String) (s : String) (l2 : List String)
    (d : String) : (l ++ s :: l2).getD l.length d = s := by
  induction l with
  | nil => simp [List.getD_cons_zero]
  | cons x rest ih => simpa [List.getD_cons_succ] using ih

theorem getD_of_get? {l : List String} {n : Nat} {s d : String}
    (h : l.get? n = some s) : l.getD n d = s := by
  induction l generalizing n with
  | nil => simp at h
  | cons x rest ih =>
      cases n with
      | zero =>
          simp at h
          simp [List.getD_cons_zero, h]
      | succ m =>
          rw [List.get?_cons_succ] at h
          simp only [List.getD_cons_succ]
          exact ih h

theorem getOrInsertNode_edges (g : PlayerGraph) (p : String) :
    (getOrInsertNode g p).1.edges = g.edges := by
  unfold getOrInsertNode
  cases h : lookupIdx g.nodes p <;> rfl

theorem getOrInsertNode_nodes_ext (g : PlayerGraph) (p : String) :
    ∃ ext, (getOrInsertNode g p).1.nodes = g.nodes ++ ext ∧
      ∀ x ∈ ext, x = p := by
  unfold getOrInsertNode
  cases h : lookupIdx g.nodes p with
  | none => exact ⟨[p], rfl, by simp⟩
  | some i => exact ⟨[], by simp, by simp⟩

theorem getOrInsertNode_idx_lt (g : PlayerGraph) (p : String) :
    (getOrInsertNode g p).2 < (getOrInsertNode g p).1.nodes.length := by
  unfold getOrInsertNode
  cases h : lookupIdx g.nodes p with
  | none => simp
  | some i => exact lookupIdx_some_lt h

theorem getOrInsertNode_name (g : PlayerGraph) (p : String) :
    nameAt (getOrInsertNode g p).1 (getOrInsertNode g p).2 = p := by
  unfold getOrInsertNode
  cases h : lookupIdx g.nodes p with
  | none =>
      show (g.nodes ++ [p]).getD g.nodes.length "" = p
      exact getD_append_length g.nodes p [] ""
  | some i =>
      show g.nodes.getD i "" = p
      exact getD_of_get? (lookupIdx_some_get h)

theorem getOrInsertNode_mem (g : PlayerGraph) (p x : String) :
    x ∈ (getOrInsertNode g p).1.nodes ↔ x ∈ g.nodes ∨ x = p := by
  unfold getOrInsertNode
  cases h : lookupIdx g.nodes p with
  | none => simp
  | some i =>
      simp only []
      constructor
      · intro hx; exact Or.inl hx
      · intro hx
        rcases hx with hx | hx
        · exact hx
        · subst hx
          have : lookupIdx g.nodes x ≠ none := by rw [h]; simp
          exact not_not.mp (fun hmem => this (lookupIdx_none_iff.mpr hmem))

theorem getOrInsertNode_nodup (g : PlayerGraph) (p : String)
    (h : g.nodes.Nodup) : (getOrInsertNode g p).1.nodes.Nodup := by
  unfold getOrInsertNode
  cases hl : lookupIdx g.nodes p with
  | none =>
      have hp : p ∉ g.nodes := lookupIdx_none_iff.mp hl
      simpa [List.nodup_append] using ⟨h, hp⟩
  | some i => exact h

theorem getOrInsertNode_present (g : PlayerGraph) (p : String)
    (h : p ∈ g.nodes) : (getOrInsertNode g p).1 = g := by
  unfold getOrInsertNode
  cases hl : lookupIdx g.nodes p with
  | none => exact absurd h (lookupIdx_none_iff.mp hl)
  | some i => rfl

theorem edgeMatches_iff {e : Nat × Nat × Nat} {u v : Nat} :
    edgeMatches e u v = true ↔
      (e.1 = u ∧ e.2.1 = v) ∨ (e.1 = v ∧ e.2.1 = u) := by
  simp [edgeMatches]

theorem wsum_ext {f f' : Nat → String} {a b : String}
    {es : List (Nat × Nat × Nat)}
    (h : ∀ e ∈ es, f e.1 = f' e.1 ∧ f e.2.1 = f' e.2.1) :
    wsum f a b es = wsum f' a b es := by
  induction es with
  | nil => rfl
  | cons e rest ih =>
      rw [wsum, wsum]
      obtain ⟨h1, h2⟩ := h e (List.mem_cons_self _ _)
      rw [h1, h2, ih (fun e' he' => h e' (List.mem_cons_of_mem _ he'))]

theorem weightBetween_eq_wsum (g : PlayerGraph) (a b : String) :
    weightBetween g a b = wsum (nameAt g) a b g.edges := by
  unfold weightBetween
  generalize g.edges = es
  induction es with
  | nil => rfl
  | cons e rest ih =>
      rw [List.filter_cons, wsum]
      by_cases hp : ((nameAt g e.1 == a && nameAt g e.2.1 == b) ||
          (nameAt g e.1 == b && nameAt g e.2.1 == a)) = true
      · rw [if_pos hp, if_pos hp, List.map_cons, List.sum_cons, ih]
      · rw [if_neg hp, if_neg hp, ih, Nat.zero_add]

theorem wsum_addEdgeInc (f : Nat → String) (a b : String)
    (es : List (Nat × Nat × Nat)) (u v : Nat) :
    wsum f a b (addEdgeInc es u v) =
      wsum f a b es +
        (if (f u == a && f v == b) || (f u == b && f v == a)
         then 1 else 0) := by
  induction es with
  | nil =>
      show wsum f a b [(u, v, 1)] = _
      by_cases hi : ((f u == a && f v == b) || (f u == b && f v == a)) = true
      · simp [wsum, hi]
      · simp [wsum, hi]
  | cons e rest ih =>
      rw [addEdgeInc]
      by_cases hm : edgeMatches e u v = true
      · rw [if_pos hm]
        have hep : ((f e.1 == a && f e.2.1 == b) || (f e.1 == b && f e.2.1 == a)) =
            ((f u == a && f v == b) || (f u == b && f v == a)) := by
          rcases edgeMatches_iff.mp hm with ⟨h1, h2⟩ | ⟨h1, h2⟩
          · rw [h1, h2]
          · rw [h1, h2, Bool.or_comm]
            congr 1 <;> rw [Bool.and_comm]
        rw [wsum, wsum, hep]
        cases hcond : ((f u == a && f v == b) || (f u == b && f v == a)) <;>
          simp <;> omega
      · rw [if_neg hm, wsum, wsum, ih]
        omega

theorem addEdgeInc_endpoints {es : List (Nat × Nat × Nat)} {u v : Nat} :
    ∀ e' ∈ addEdgeInc es u v,
      (∃ e ∈ es, e'.1 = e.1 ∧ e'.2.1 = e.2.1) ∨ (e'.1 = u ∧ e'.2.1 = v) := by
  induction es with
  | nil =>
      intro e' h
      rw [addEdgeInc] at h
      rcases List.mem_cons.mp h with h' | h'
      · subst h'; right; exact ⟨rfl, rfl⟩
      · simp at h'
  | cons e rest ih =>
      intro e' h
      rw [addEdgeInc] at h
      by_cases hm : edgeMatches e u v = true
      · rw [if_pos hm] at h
        rcases List.mem_cons.mp h with h' | h'
        · subst h'; left; exact ⟨e, List.mem_cons_self _ _, rfl, rfl⟩
        · left; exact ⟨e', List.mem_cons_of_mem _ h', rfl, rfl⟩
      · rw [if_neg hm] at h
        rcases List.mem_cons.mp h with h' | h'
        · subst h'; left; exact ⟨e', List.mem_cons_self _ _, rfl, rfl⟩
        · rcases ih e' h' with ⟨e0, he0, hh⟩ | hh
          · left; exact ⟨e0, List.mem_cons_of_mem _ he0, hh⟩
          · right; exact hh

theorem addEdgeInc_valid {es : List (Nat × Nat × Nat)} {u v N : Nat}
    (hes : ∀ e ∈ es, e.1 < N ∧ e.2.1 < N) (hu : u < N) (hv : v < N) :
    ∀ e ∈ addEdgeInc es u v, e.1 < N ∧ e.2.1 < N := by
  intro e' h'
  rcases addEdgeInc_endpoints e' h' with ⟨e0, he0, h1, h2⟩ | ⟨h1, h2⟩
  · rw [h1, h2]; exact hes e0 he0
  · rw [h1, h2]; exact ⟨hu, hv⟩

theorem addEdgeInc_pairwise {es : List (Nat × Nat × Nat)} {u v : Nat}
    (h : es.Pairwise (fun e1 e2 =>
      ¬ ((e1.1 = e2.1 ∧ e1.2.1 = e2.2.1) ∨ (e1.1 = e2.2.1 ∧ e1.2.1 = e2.1)))) :
    (addEdgeInc es u v).Pairwise (fun e1 e2 =>
      ¬ ((e1.1 = e2.1 ∧ e1.2.1 = e2.2.1) ∨ (e1.1 = e2.2.1 ∧ e1.2.1 = e2.1))) := by
  induction es with
  | nil =>
      rw [addEdgeInc]
      exact List.pairwise_singleton _ _
  | cons e rest ih =>
      obtain ⟨hhead, htail⟩ := List.pairwise_cons.mp h
      rw [addEdgeInc]
      by_cases hm : edgeMatches e u v = true
      · rw [if_pos hm]
        rw [List.pairwise_cons]
        exact ⟨fun e2 h2 => hhead e2 h2, htail⟩
      · rw [if_neg hm]
        rw [List.pairwise_cons]
        refine ⟨?_, ih htail⟩
        intro x hx
        rcases addEdgeInc_endpoints x hx with ⟨e0, he0, h1, h2⟩ | ⟨h1, h2⟩
        · have := hhead e0 he0
          rw [h1, h2]
          exact this
        · rw [h1, h2]
          intro hcon
          exact hm (edgeMatches_iff.mpr hcon)

theorem addEdgeInc_pos {es : List (Nat × Nat × Nat)} {u v : Nat}
    (h : ∀ e ∈ es, 0 < e.2.2) : ∀ e ∈ addEdgeInc es u v, 0 < e.2.2 := by
  induction es with
  | nil =>
      intro e' h'
      rw [addEdgeInc] at h'
      rcases List.mem_cons.mp h' with h'' | h''
      · subst h''; exact Nat.one_pos
      · simp at h''
  | cons e rest ih =>
      intro e' h'
      rw [addEdgeInc] at h'
      by_cases hm : edgeMatches e u v = true
      · rw [if_pos hm] at h'
        rcases List.mem_cons.mp h' with h'' | h''
        · subst h''; exact Nat.succ_pos _
        · exact h e' (List.mem_cons_of_mem _ h'')
      · rw [if_neg hm] at h'
        rcases List.mem_cons.mp h' with h'' | h''
        · subst h''; exact h _ (List.mem_cons_self _ _)
        · exact ih (fun e0 he0 => h e0 (List.mem_cons_of_mem _ he0)) e' h''

theorem processPairs_cons (g : PlayerGraph) (i1 : Nat) (p2 : String)
    (rest : List String) :
    processPairs g i1 (p2 :: rest) =
      processPairs
        { (getOrInsertNode g p2).1 with
          edges := addEdgeInc (getOrInsertNode g p2).1.edges i1
            (getOrInsertNode g p2).2 } i1 rest := rfl

theorem processRoster_cons (g : PlayerGraph) (p1 : String)
    (rest : List String) :
    processRoster g (p1 :: rest) =
      processRoster
        (processPairs (getOrInsertNode g p1).1 (getOrInsertNode g p1).2 rest)
        rest := rfl

theorem processPairs_nodes_ext (i1 : Nat) (rest : List String) :
    ∀ g : PlayerGraph, ∃ ext, (processPairs g i1 rest).nodes = g.nodes ++ ext ∧
      ∀ x ∈ ext, x ∈ rest := by
  induction rest with
  | nil =>
      intro g
      exact ⟨[], by simp [processPairs], by simp⟩
  | cons p2 rest' ih =>
      intro g
      rw [processPairs_cons]
      obtain ⟨ext1, h1, hx1⟩ := ih
        { (getOrInsertNode g p2).1 with
          edges := addEdgeInc (getOrInsertNode g p2).1.edges i1
            (getOrInsertNode g p2).2 }
      obtain ⟨ext0, h0, hx0⟩ := getOrInsertNode_nodes_ext g p2
      refine ⟨ext0 ++ ext1, ?_, ?_⟩
      · rw [h1]
        show (getOrInsertNode g p2).1.nodes ++ ext1 = _
        rw [h0, List.append_assoc]
      · intro x hx
        rcases List.mem_append.mp hx with hx' | hx'
        · rw [hx0 x hx']
          exact List.mem_cons_self _ _
        · exact List.mem_cons_of_mem _ (hx1 x hx')

theorem processPairs_mem_nodes (i1 : Nat) (rest : List String)
    (g : PlayerGraph) {x : String} :
    x ∈ (processPairs g i1 rest).nodes ↔ x ∈ g.nodes ∨ x ∈ rest := by
  induction rest generalizing g with
  | nil => simp [processPairs]
  | cons p2 rest' ih =>
      rw [processPairs_cons, ih]
      show x ∈ (getOrInsertNode g p2).1.nodes ∨ _ ↔ _
      rw [getOrInsertNode_mem]
      constructor
      · rintro ((h | h) | h)
        · exact Or.inl h
        · exact Or.inr (h ▸ List.mem_cons_self _ _)
        · exact Or.inr (List.mem_cons_of_mem _ h)
      · rintro (h | h)
        · exact Or.inl (Or.inl h)
        · rcases List.mem_cons.mp h with h' | h'
          · exact Or.inl (Or.inr h')
          · exact Or.inr h'

theorem processPairs_nodup (i1 : Nat) (rest : List String) :
    ∀ g : PlayerGraph, g.nodes.Nodup → (processPairs g i1 rest).nodes.Nodup := by
  induction rest with
  | nil => intro g h; exact h
  | cons p2 rest' ih =>
      intro g h
      rw [processPairs_cons]
      exact ih _ (getOrInsertNode_nodup g p2 h)

theorem processPairs_valid (i1 : Nat) (rest : List String) :
    ∀ g : PlayerGraph, edgesValid g → i1 < g.nodes.length →
      edgesValid (processPairs g i1 rest) := by
  induction rest with
  | nil => intro g h _; exact h
  | cons p2 rest' ih =>
      intro g hval hi1
      rw [processPairs_cons]
      obtain ⟨ext0, h0, _⟩ := getOrInsertNode_nodes_ext g p2
      have hlen : g.nodes.length ≤ (getOrInsertNode g p2).1.nodes.length := by
        rw [h0, List.length_append]
        omega
      apply ih
      · intro e he
        have he' : e ∈ addEdgeInc (getOrInsertNode g p2).1.edges i1
            (getOrInsertNode g p2).2 := he
        rw [getOrInsertNode_edges] at he'
        have hv2 := addEdgeInc_valid
          (fun e0 he0 => ⟨lt_of_lt_of_le (hval e0 he0).1 hlen,
            lt_of_lt_of_le (hval e0 he0).2 hlen⟩)
          (lt_of_lt_of_le hi1 hlen) (getOrInsertNode_idx_lt g p2) e he'
        exact hv2
      · show i1 < (getOrInsertNode g p2).1.nodes.length
        exact lt_of_lt_of_le hi1 hlen

theorem processPairs_noParallel (i1 : Nat) (rest : List String) :
    ∀ g : PlayerGraph, noParallelEdges g →
      noParallelEdges (processPairs g i1 rest) := by
  induction rest with
  | nil => intro g h; exact h
  | cons p2 rest' ih =>
      intro g h
      rw [processPairs_cons]
      apply ih
      show (addEdgeInc (getOrInsertNode g p2).1.edges i1
        (getOrInsertNode g p2).2).Pairwise _
      rw [getOrInsertNode_edges]
      exact addEdgeInc_pairwise h

theorem processPairs_pos (i1 : Nat) (rest : List String) :
    ∀ g : PlayerGraph, (∀ e ∈ g.edges, 0 < e.2.2) →
      ∀ e ∈ (processPairs g i1 rest).edges, 0 < e.2.2 := by
  induction rest with
  | nil => intro g h; exact h
  | cons p2 rest' ih =>
      intro g h
      rw [processPairs_cons]
      apply ih
      intro e he
      have he' : e ∈ addEdgeInc (getOrInsertNode g p2).1.edges i1
          (getOrInsertNode g p2).2 := he
      rw [getOrInsertNode_edges] at he'
      exact addEdgeInc_pos (fun e0 he0 => h e0 he0) e he'

theorem nameAt_ext {g g' : PlayerGraph} {ext : List String}
    (hn : g'.nodes = g.nodes ++ ext) {u : Nat} (h : u < g.nodes.length) :
    nameAt g' u = nameAt g u := by
  unfold nameAt
  rw [hn]
  exact getD_append_left g.nodes ext u "" h

theorem processPairs_wsum (rest : List String) :
    ∀ (g : PlayerGraph) (i1 : Nat), edgesValid g → i1 < g.nodes.length →
    ∀ a b : String,
      wsum (nameAt (processPairs g i1 rest)) a b (processPairs g i1 rest).edges =
        wsum (nameAt g) a b g.edges +
          rest.countP (fun q =>
            (nameAt g i1 == a && q == b) || (nameAt g i1 == b && q == a)) := by
  induction rest with
  | nil =>
      intro g i1 _ _ a b
      simp [processPairs, List.countP_nil]
  | cons p2 rest' ih =>
      intro g i1 hval hi1 a b
      rw [processPairs_cons]
      obtain ⟨ext0, h0, _⟩ := getOrInsertNode_nodes_ext g p2
      have hedges1 : (getOrInsertNode g p2).1.edges = g.edges :=
        getOrInsertNode_edges g p2
      have hlen : g.nodes.length ≤ (getOrInsertNode g p2).1.nodes.length := by
        rw [h0, List.length_append]; omega
      -- the intermediate graph after resolving p2 and bumping the edge
      set G2 : PlayerGraph :=
        { (getOrInsertNode g p2).1 with
          edges := addEdgeInc (getOrInsertNode g p2).1.edges i1
            (getOrInsertNode g p2).2 } with hG2
      have hG2nodes : G2.nodes = g.nodes ++ ext0 := h0
      have hG2valid : edgesValid G2 := by
        intro e he
        have he' : e ∈ addEdgeInc (getOrInsertNode g p2).1.edges i1
            (getOrInsertNode g p2).2 := he
        rw [hedges1] at he'
        have := addEdgeInc_valid
          (fun e0 he0 => ⟨lt_of_lt_of_le (hval e0 he0).1 hlen,
            lt_of_lt_of_le (hval e0 he0).2 hlen⟩)
          (lt_of_lt_of_le hi1 hlen) (getOrInsertNode_idx_lt g p2) e he'
        have hlen2 : G2.nodes.length = (getOrInsertNode g p2).1.nodes.length := rfl
        rw [hlen2]
        exact this
      have hi1G2 : i1 < G2.nodes.length := by
        show i1 < (getOrInsertNode g p2).1.nodes.length
        exact lt_of_lt_of_le hi1 hlen
      have hname1 : nameAt G2 i1 = nameAt g i1 := nameAt_ext hG2nodes hi1
      have hname2 : nameAt G2 (getOrInsertNode g p2).2 = p2 := by
        have : nameAt G2 (getOrInsertNode g p2).2 =
            nameAt (getOrInsertNode g p2).1 (getOrInsertNode g p2).2 := rfl
        rw [this, getOrInsertNode_name]
      have hih := ih G2 i1 hG2valid hi1G2 a b
      rw [hih]
      -- rewrite the inner wsum over G2's edges
      have hG2edges : G2.edges = addEdgeInc g.edges i1 (getOrInsertNode g p2).2 := by
        show addEdgeInc (getOrInsertNode g p2).1.edges i1 (getOrInsertNode g p2).2 = _
        rw [hedges1]
      rw [hG2edges, wsum_addEdgeInc]
      have hwext : wsum (nameAt G2) a b g.edges = wsum (nameAt g) a b g.edges := by
        apply wsum_ext
        intro e he
        have h1 := (hval e he).1
        have h2 := (hval e he).2
        exact ⟨nameAt_ext hG2nodes h1, nameAt_ext hG2nodes h2⟩
      rw [hwext, hname1, hname2, List.countP_cons]
      omega

theorem processRoster_mem_nodes (r : List String) :
    ∀ (g : PlayerGraph) (x : String),
      x ∈ (processRoster g r).nodes ↔ x ∈ g.nodes ∨ x ∈ r := by
  induction r with
  | nil => intro g x; simp [processRoster]
  | cons p1 rest ih =>
      intro g x
      rw [processRoster_cons, ih, processPairs_mem_nodes, getOrInsertNode_mem]
      simp [List.mem_cons]
      tauto

theorem processRoster_nodes_ext (r : List String) :
    ∀ g : PlayerGraph, ∃ ext, (processRoster g r).nodes = g.nodes ++ ext := by
  induction r with
  | nil => intro g; exact ⟨[], by simp [processRoster]⟩
  | cons p1 rest ih =>
      intro g
      rw [processRoster_cons]
      obtain ⟨ext1, h1⟩ := ih
        (processPairs (getOrInsertNode g p1).1 (getOrInsertNode g p1).2 rest)
      obtain ⟨ext2, h2, _⟩ :=
        processPairs_nodes_ext (getOrInsertNode g p1).2 rest (getOrInsertNode g p1).1
      obtain ⟨ext0, h0, _⟩ := getOrInsertNode_nodes_ext g p1
      refine ⟨(ext0 ++ ext2) ++ ext1, ?_⟩
      rw [h1, h2, h0]
      simp [List.append_assoc]

theorem processRoster_nodup (r : List String) :
    ∀ g : PlayerGraph, g.nodes.Nodup → (processRoster g r).nodes.Nodup := by
  induction r with
  | nil => intro g h; exact h
  | cons p1 rest ih =>
      intro g h
      rw [processRoster_cons]
      exact ih _ (processPairs_nodup _ _ _ (getOrInsertNode_nodup g p1 h))

theorem processRoster_valid (r : List String) :
    ∀ g : PlayerGraph, edgesValid g → edgesValid (processRoster g r) := by
  induction r with
  | nil => intro g h; exact h
  | cons p1 rest ih =>
      intro g hval
      rw [processRoster_cons]
      apply ih
      apply processPairs_valid _ _ _ _ (getOrInsertNode_idx_lt g p1)
      obtain ⟨ext0, h0, _⟩ := getOrInsertNode_nodes_ext g p1
      intro e he
      have he' : e ∈ g.edges := by
        rw [getOrInsertNode_edges] at he
        exact he
      have hlen : g.nodes.length ≤ (getOrInsertNode g p1).1.nodes.length := by
        rw [h0, List.length_append]; omega
      exact ⟨lt_of_lt_of_le (hval e he').1 hlen,
        lt_of_lt_of_le (hval e he').2 hlen⟩

theorem processRoster_noParallel (r : List String) :
    ∀ g : PlayerGraph, noParallelEdges g →
      noParallelEdges (processRoster g r) := by
  induction r with
  | nil => intro g h; exact h
  | cons p1 rest ih =>
      intro g h
      rw [processRoster_cons]
      apply ih
      apply processPairs_noParallel
      show (getOrInsertNode g p1).1.edges.Pairwise _
      rw [getOrInsertNode_edges]
      exact h

theorem processRoster_pos (r : List String) :
    ∀ g : PlayerGraph, (∀ e ∈ g.edges, 0 < e.2.2) →
      ∀ e ∈ (processRoster g r).edges, 0 < e.2.2 := by
  induction r with
  | nil => intro g h; exact h
  | cons p1 rest ih =>
      intro g h
      rw [processRoster_cons]
      apply ih
      apply processPairs_pos
      intro e he
      have he' : e ∈ g.edges := by
        rw [getOrInsertNode_edges] at he
        exact he
      exact h e he'

theorem processRoster_wsum (r : List String) :
    ∀ g : PlayerGraph, edgesValid g → ∀ a b : String,
      wsum (nameAt (processRoster g r)) a b (processRoster g r).edges =
        wsum (nameAt g) a b g.edges + pairCnt r a b := by
  induction r with
  | nil =>
      intro g _ a b
      simp [processRoster, pairCnt]
  | cons p1 rest ih =>
      intro g hval a b
      rw [processRoster_cons]
      obtain ⟨ext0, h0, _⟩ := getOrInsertNode_nodes_ext g p1
      have hlen : g.nodes.length ≤ (getOrInsertNode g p1).1.nodes.length := by
        rw [h0, List.length_append]; omega
      have hval1 : edgesValid (getOrInsertNode g p1).1 := by
        intro e he
        have he' : e ∈ g.edges := by
          rw [getOrInsertNode_edges] at he
          exact he
        exact ⟨lt_of_lt_of_le (hval e he').1 hlen,
          lt_of_lt_of_le (hval e he').2 hlen⟩
      have hvalP : edgesValid
          (processPairs (getOrInsertNode g p1).1 (getOrInsertNode g p1).2 rest) :=
        processPairs_valid _ _ _ hval1 (getOrInsertNode_idx_lt g p1)
      rw [ih _ hvalP a b,
        processPairs_wsum rest (getOrInsertNode g p1).1 (getOrInsertNode g p1).2
          hval1 (getOrInsertNode_idx_lt g p1) a b,
        getOrInsertNode_name]
      have hwext : wsum (nameAt (getOrInsertNode g p1).1) a b
          (getOrInsertNode g p1).1.edges = wsum (nameAt g) a b g.edges := by
        rw [getOrInsertNode_edges]
        apply wsum_ext
        intro e he
        exact ⟨nameAt_ext h0 (hval e he).1, nameAt_ext h0 (hval e he).2⟩
      rw [hwext, pairCnt]
      omega

theorem processPairs_nodes_noop (i1 : Nat) (rest : List String) :
    ∀ g : PlayerGraph, (∀ x ∈ rest, x ∈ g.nodes) →
      (processPairs g i1 rest).nodes = g.nodes := by
  induction rest with
  | nil => intro g _; rfl
  | cons p2 rest' ih =>
      intro g hsub
      rw [processPairs_cons]
      have hpresent : (getOrInsertNode g p2).1 = g :=
        getOrInsertNode_present g p2 (hsub p2 (List.mem_cons_self _ _))
      rw [hpresent]
      have := ih { g with edges := addEdgeInc g.edges i1 (getOrInsertNode g p2).2 }
        (fun x hx => hsub x (List.mem_cons_of_mem _ hx))
      exact this

theorem processRoster_nodes_noop (r : List String) :
    ∀ g : PlayerGraph, (∀ x ∈ r, x ∈ g.nodes) →
      (processRoster g r).nodes = g.nodes := by
  induction r with
  | nil => intro g _; rfl
  | cons p1 rest ih =>
      intro g hsub
      rw [processRoster_cons]
      have hpresent : (getOrInsertNode g p1).1 = g :=
        getOrInsertNode_present g p1 (hsub p1 (List.mem_cons_self _ _))
      rw [hpresent]
      have hPn : (processPairs g (getOrInsertNode g p1).2 rest).nodes = g.nodes :=
        processPairs_nodes_noop _ _ g (fun x hx => hsub x (List.mem_cons_of_mem _ hx))
      rw [ih _ (fun x hx => by
        rw [hPn]
        exact hsub x (List.mem_cons_of_mem _ hx)), hPn]

theorem insertGroup_absent (m : List ((String × String) × List String))
    (k : String × String) (n : String) (hm : ∀ kv ∈ m, kv.1 ≠ k) :
    insertGroup m k n = m ++ [(k, [n])] := by
  induction m with
  | nil => rfl
  | cons kv rest ih =>
      obtain ⟨k', l⟩ := kv
      rw [insertGroup,
        if_neg (hm (k', l) (List.mem_cons_self _ _)),
        ih (fun kv' h' => hm kv' (List.mem_cons_of_mem _ h')),
        List.cons_append]

theorem insertGroup_present (pre suf : List ((String × String) × List String))
    (k : String × String) (l : List String) (n : String)
    (hpre : ∀ kv ∈ pre, kv.1 ≠ k) :
    insertGroup (pre ++ (k, l) :: suf) k n = pre ++ (k, l ++ [n]) :: suf := by
  induction pre with
  | nil =>
      rw [List.nil_append, insertGroup, if_pos rfl, List.nil_append]
  | cons kv rest ih =>
      obtain ⟨k', l'⟩ := kv
      rw [List.cons_append, insertGroup,
        if_neg (hpre (k', l') (List.mem_cons_self _ _)),
        ih (fun kv' h' => hpre kv' (List.mem_cons_of_mem _ h')),
        List.cons_append]

theorem fold_const_key_present (kt ks : String) (r : List String) :
    ∀ (pre suf : List ((String × String) × List String)) (l : List String),
      (∀ kv ∈ pre, kv.1 ≠ (kt, ks)) →
      (recordsFor r (kt, ks)).foldl
          (fun m ps => insertGroup m (ps.team, ps.season) ps.player_name)
          (pre ++ ((kt, ks), l) :: suf) =
        pre ++ ((kt, ks), l ++ r) :: suf := by
  induction r with
  | nil =>
      intro pre suf l _
      simp [recordsFor]
  | cons n rest ih =>
      intro pre suf l hpre
      rw [recordsFor, List.map_cons, List.foldl_cons]
      have hstep : insertGroup (pre ++ ((kt, ks), l) :: suf) (kt, ks) n =
          pre ++ ((kt, ks), l ++ [n]) :: suf :=
        insertGroup_present pre suf (kt, ks) l n hpre
      show (recordsFor rest (kt, ks)).foldl
          (fun m ps => insertGroup m (ps.team, ps.season) ps.player_name)
          (insertGroup (pre ++ ((kt, ks), l) :: suf) (kt, ks) n) = _
      rw [hstep, ih pre suf (l ++ [n]) hpre, List.append_assoc]
      rfl

theorem fold_const_key_absent (kt ks : String) (r : List String)
    (m : List ((String × String) × List String))
    (hm : ∀ kv ∈ m, kv.1 ≠ (kt, ks)) (hr : r ≠ []) :
    (recordsFor r (kt, ks)).foldl
        (fun m ps => insertGroup m (ps.team, ps.season) ps.player_name) m =
      m ++ [((kt, ks), r)] := by
  cases r with
  | nil => exact absurd rfl hr
  | cons n rest =>
      rw [recordsFor, List.map_cons, List.foldl_cons]
      show (recordsFor rest (kt, ks)).foldl
          (fun m ps => insertGroup m (ps.team, ps.season) ps.player_name)
          (insertGroup m (kt, ks) n) = _
      rw [insertGroup_absent m (kt, ks) n hm]
      exact fold_const_key_present kt ks rest m [] [n] hm

theorem groupRecords_single (kt ks : String) (r : List String) (hr : r ≠ []) :
    groupRecords (recordsFor r (kt, ks)) = [((kt, ks), r)] := by
  unfold groupRecords
  rw [fold_const_key_absent kt ks r [] (by simp) hr]
  rfl

theorem groupRecords_double (kt ks kt2 ks2 : String) (r : List String)
    (hk : (kt, ks) ≠ (kt2, ks2)) (hr : r ≠ []) :
    groupRecords (recordsFor r (kt, ks) ++ recordsFor r (kt2, ks2)) =
      [((kt, ks), r), ((kt2, ks2), r)] := by
  unfold groupRecords
  rw [List.foldl_append]
  have h1 : (recordsFor r (kt, ks)).foldl
      (fun m ps => insertGroup m (ps.team, ps.season) ps.player_name) [] =
      [((kt, ks), r)] := by
    rw [fold_const_key_absent kt ks r [] (by simp) hr]
    rfl
  rw [h1, fold_const_key_absent kt2 ks2 r [((kt, ks), r)]
    (by intro kv hkv; simp at hkv; rw [hkv]; exact hk) hr]
  rfl

/-- C6 counterexample: the claim says that feeding GraphBuilder a roster's
records twice (the same records duplicated) exactly doubles each pair's
edge weight without adding edges.  Duplicating the records keeps the same
`(team, season)` key, so the code merges them into one roster of doubled
length: the A–B weight becomes 4 (not 2·1 = 2) and self-loops on A and B
appear. -/
theorem build_duplicate_records_not_doubled :
    weightBetween (build_player_graph
      (recordsFor ["A", "B"] ("T", "S") ++ recordsFor ["A", "B"] ("T", "S")))
      "A" "B" = 4 ∧
    weightBetween (build_player_graph (recordsFor ["A", "B"] ("T", "S")))
      "A" "B" = 1 ∧
    hasSelfLoop (build_player_graph
      (recordsFor ["A", "B"] ("T", "S") ++ recordsFor ["A", "B"] ("T", "S"))) =
      true := by
  refine ⟨?_, ?_, ?_⟩ <;> decide

/-- C6 (amended): feeding GraphBuilder the same roster a second time under
a *different* `(team, season)` key (so that it forms a second co-occurrence
group) yields the same node list, exactly doubles the total weight between
every unordered pair of names, and creates no parallel edges. -/
theorem build_roster_second_group_doubles (r : List String)
    (kt ks kt2 ks2 : String) (hk : (kt, ks) ≠ ((kt2, ks2) : String × String)) :
    (build_player_graph
        (recordsFor r (kt, ks) ++ recordsFor r (kt2, ks2))).nodes =
      (build_player_graph (recordsFor r (kt, ks))).nodes ∧
    (∀ a b : String,
      weightBetween (build_player_graph
          (recordsFor r (kt, ks) ++ recordsFor r (kt2, ks2))) a b =
        2 * weightBetween (build_player_graph (recordsFor r (kt, ks))) a b) ∧
    noParallelEdges (build_player_graph
      (recordsFor r (kt, ks) ++ recordsFor r (kt2, ks2))) := by
  by_cases hr : r = []
  · subst hr
    exact ⟨rfl, fun a b => rfl, List.Pairwise.nil⟩
  · have hb1 : build_player_graph (recordsFor r (kt, ks)) =
        processRoster ⟨[], []⟩ r := by
      unfold build_player_graph
      rw [groupRecords_single kt ks r hr]
      rfl
    have hb2 : build_player_graph
        (recordsFor r (kt, ks) ++ recordsFor r (kt2, ks2)) =
        processRoster (processRoster ⟨[], []⟩ r) r := by
      unfold build_player_graph
      rw [groupRecords_double kt ks kt2 ks2 r hk hr]
      rfl
    have hvalE : edgesValid ⟨[], []⟩ := by
      intro e he
      simp at he
    have hval1 : edgesValid (processRoster ⟨[], []⟩ r) :=
      processRoster_valid r _ hvalE
    have hsub : ∀ x ∈ r, x ∈ (processRoster ⟨[], []⟩ r).nodes := by
      intro x hx
      exact (processRoster_mem_nodes r ⟨[], []⟩ x).mpr (Or.inr hx)
    refine ⟨?_, ?_, ?_⟩
    · rw [hb1, hb2]
      exact processRoster_nodes_noop r _ hsub
    · intro a b
      rw [hb1, hb2, weightBetween_eq_wsum, weightBetween_eq_wsum,
        processRoster_wsum r _ hval1 a b,
        processRoster_wsum r ⟨[], []⟩ hvalE a b]
      have h0 : wsum (nameAt ⟨[], []⟩) a b (PlayerGraph.mk [] []).edges = 0 := rfl
      rw [h0]
      omega
    · rw [hb2]
      exact processRoster_noParallel r _
        (processRoster_noParallel r ⟨[], []⟩ List.Pairwise.nil)

/-- Witness for the amended C6 at a concrete roster and two distinct keys. -/
theorem build_roster_second_group_doubles_witness :
    ((("T", "2020") : String × String) ≠ ("T", "2021")) ∧
    ((build_player_graph
        (recordsFor ["A", "B"] ("T", "2020") ++
          recordsFor ["A", "B"] ("T", "2021"))).nodes =
      (build_player_graph (recordsFor ["A", "B"] ("T", "2020"))).nodes ∧
    (∀ a b : String,
      weightBetween (build_player_graph
          (recordsFor ["A", "B"] ("T", "2020") ++
            recordsFor ["A", "B"] ("T", "2021"))) a b =
        2 * weightBetween
          (build_player_graph (recordsFor ["A", "B"] ("T", "2020"))) a b) ∧
    noParallelEdges (build_player_graph
      (recordsFor ["A", "B"] ("T", "2020") ++
        recordsFor ["A", "B"] ("T", "2021")))) :=
  ⟨by decide,
   build_roster_second_group_doubles ["A", "B"] "T" "2020" "T" "2021"
     (by decide)⟩

/-! # Reachability and unit-cost distance (for the centrality claim) -/

theorem mem_neighbors_iff {g : PlayerGraph} {u t : Nat} :
    t ∈ neighbors g u ↔ Adj g u t := by
  unfold neighbors Adj
  generalize g.edges = es
  induction es with
  | nil => simp
  | cons e rest ih =>
      rw [List.foldr_cons]
      by_cases h1 : e.1 = u
      · rw [if_pos (by simp [h1])]
        rw [List.mem_cons, ih]
        constructor
        · rintro (h | ⟨e0, he0, h0⟩)
          · exact ⟨e, List.mem_cons_self _ _, Or.inl ⟨h1, h.symm⟩⟩
          · exact ⟨e0, List.mem_cons_of_mem _ he0, h0⟩
        · rintro ⟨e0, he0, h0⟩
          rcases List.mem_cons.mp he0 with he0' | he0'
          · subst he0'
            rcases h0 with ⟨_, h2⟩ | ⟨h2, h3⟩
            · exact Or.inl h2.symm
            · rw [h1] at h2
              exact Or.inl (by rw [h3]; exact h2.symm)
          · exact Or.inr ⟨e0, he0', h0⟩
      · by_cases h2 : e.2.1 = u
        · rw [if_neg (by simp [h1]), if_pos (by simp [h2])]
          rw [List.mem_cons, ih]
          constructor
          · rintro (h | ⟨e0, he0, h0⟩)
            · exact ⟨e, List.mem_cons_self _ _, Or.inr ⟨h.symm, h2⟩⟩
            · exact ⟨e0, List.mem_cons_of_mem _ he0, h0⟩
          · rintro ⟨e0, he0, h0⟩
            rcases List.mem_cons.mp he0 with he0' | he0'
            · subst he0'
              rcases h0 with ⟨h3, _⟩ | ⟨h3, _⟩
              · exact absurd h3 h1
              · exact Or.inl h3.symm
            · exact Or.inr ⟨e0, he0', h0⟩
        · rw [if_neg (by simp [h1]), if_neg (by simp [h2]), ih]
          constructor
          · rintro ⟨e0, he0, h0⟩
            exact ⟨e0, List.mem_cons_of_mem _ he0, h0⟩
          · rintro ⟨e0, he0, h0⟩
            rcases List.mem_cons.mp he0 with he0' | he0'
            · subst he0'
              rcases h0 with ⟨h3, _⟩ | ⟨_, h3⟩
              · exact absurd h3 h1
              · exact absurd h3 h2
            · exact ⟨e0, he0', h0⟩

theorem walk_zero {g : PlayerGraph} {u t : Nat} (h : Walk g u t 0) : u = t := by
  cases h
  rfl

theorem walk_succ {g : PlayerGraph} {u t n : Nat} (h : Walk g u t (n + 1)) :
    ∃ v, Adj g u v ∧ Walk g v t n := by
  cases h with
  | cons hadj hw => exact ⟨_, hadj, hw⟩

theorem walk_snoc {g : PlayerGraph} {s u t n : Nat} (h : Walk g s u n)
    (hadj : Adj g u t) : Walk g s t (n + 1) := by
  induction h with
  | nil => exact Walk.cons hadj (Walk.nil t)
  | cons hadj' _ ih => exact Walk.cons hadj' (ih hadj)

theorem walk_decomp {g : PlayerGraph} {n : Nat} :
    ∀ {s t : Nat}, Walk g s t (n + 1) → ∃ u, Walk g s u n ∧ Adj g u t := by
  induction n with
  | zero =>
      intro s t h
      obtain ⟨v, hadj, hw⟩ := walk_succ h
      rw [walk_zero hw] at hadj
      exact ⟨s, Walk.nil s, hadj⟩
  | succ m ih =>
      intro s t h
      obtain ⟨v, hadj, hw⟩ := walk_succ h
      obtain ⟨u, hw', hadj'⟩ := ih hw
      exact ⟨u, Walk.cons hadj hw', hadj'⟩

theorem mem_reachIn_succ {g : PlayerGraph} {s t n : Nat} :
    t ∈ reachIn g s (n + 1) ↔
      t ∈ reachIn g s n ∨ ∃ u ∈ reachIn g s n, t ∈ neighbors g u := by
  rw [reachIn]
  simp [Finset.mem_union, Finset.mem_biUnion, List.mem_toFinset]

theorem reachIn_mono {g : PlayerGraph} {s : Nat} {m n : Nat} (h : m ≤ n) :
    reachIn g s m ⊆ reachIn g s n := by
  induction n with
  | zero =>
      rw [Nat.le_zero.mp h]
  | succ k ih =>
      by_cases hm : m ≤ k
      · refine (ih hm).trans ?_
        rw [reachIn]
        exact Finset.subset_union_left
      · have : m = k + 1 := by omega
        rw [this]

theorem mem_reachIn_iff_walk {g : PlayerGraph} {s : Nat} :
    ∀ {n t : Nat}, t ∈ reachIn g s n ↔ ∃ m ≤ n, Walk g s t m := by
  intro n
  induction n with
  | zero =>
      intro t
      rw [reachIn]
      simp only [Finset.mem_singleton]
      constructor
      · rintro rfl
        exact ⟨0, le_refl _, Walk.nil t⟩
      · rintro ⟨m, hm, hw⟩
        rw [Nat.le_zero.mp hm] at hw
        exact (walk_zero hw).symm
  | succ k ih =>
      intro t
      rw [mem_reachIn_succ]
      constructor
      · rintro (h | ⟨u, hu, ht⟩)
        · obtain ⟨m, hm, hw⟩ := ih.mp h
          exact ⟨m, le_trans hm (Nat.le_succ _), hw⟩
        · obtain ⟨m, hm, hw⟩ := ih.mp hu
          refine ⟨m + 1, by omega, walk_snoc hw (mem_neighbors_iff.mp ht)⟩
      · rintro ⟨m, hm, hw⟩
        by_cases hmk : m ≤ k
        · exact Or.inl (ih.mpr ⟨m, hmk, hw⟩)
        · have : m = k + 1 := by omega
          subst this
          obtain ⟨u, hw', hadj⟩ := walk_decomp hw
          exact Or.inr ⟨u, ih.mpr ⟨k, le_refl _, hw'⟩,
            mem_neighbors_iff.mpr hadj⟩

theorem reachIn_subset_range {g : PlayerGraph} {s : Nat}
    (hval : edgesValid g) (hs : s < g.nodes.length) :
    ∀ n, reachIn g s n ⊆ Finset.range g.nodes.length := by
  intro n
  induction n with
  | zero =>
      rw [reachIn]
      intro x hx
      rw [Finset.mem_singleton] at hx
      subst hx
      exact Finset.mem_range.mpr hs
  | succ k ih =>
      intro x hx
      rcases mem_reachIn_succ.mp hx with h | ⟨u, _, hn⟩
      · exact ih h
      · obtain ⟨e, he, hcase⟩ := mem_neighbors_iff.mp hn
        rcases hcase with ⟨_, h2⟩ | ⟨h1, _⟩
        · exact Finset.mem_range.mpr (h2 ▸ (hval e he).2)
        · exact Finset.mem_range.mpr (h1 ▸ (hval e he).1)

theorem reachIn_stab_step {g : PlayerGraph} {s n : Nat}
    (h : reachIn g s (n + 1) = reachIn g s n) :
    ∀ k, reachIn g s (n + k) = reachIn g s n := by
  intro k
  induction k with
  | zero => rfl
  | succ j ih =>
      have : reachIn g s (n + (j + 1)) = reachIn g s ((n + j) + 1) := by
        congr 1
      rw [this]
      calc reachIn g s ((n + j) + 1)
          = reachIn g s (n + j) ∪ (reachIn g s (n + j)).biUnion
              (fun u => (neighbors g u).toFinset) := by rw [reachIn]
        _ = reachIn g s n ∪ (reachIn g s n).biUnion
              (fun u => (neighbors g u).toFinset) := by rw [ih]
        _ = reachIn g s (n + 1) := by rw [reachIn]
        _ = reachIn g s n := h

theorem reachIn_card_grows {g : PlayerGraph} {s : Nat} :
    ∀ j, (∀ i < j, reachIn g s (i + 1) ≠ reachIn g s i) →
      j + 1 ≤ (reachIn g s j).card := by
  intro j
  induction j with
  | zero =>
      intro _
      rw [reachIn]
      simp
  | succ k ih =>
      intro h
      have hk : k + 1 ≤ (reachIn g s k).card :=
        ih (fun i hi => h i (by omega))
      have hne : reachIn g s (k + 1) ≠ reachIn g s k := h k (by omega)
      have hsub : reachIn g s k ⊆ reachIn g s (k + 1) :=
        reachIn_mono (Nat.le_succ _)
      have hss : reachIn g s k ⊂ reachIn g s (k + 1) :=
        ⟨hsub, fun h' => hne (Finset.Subset.antisymm h' hsub)⟩
      have := Finset.card_lt_card hss
      omega

theorem reachIn_absorb {g : PlayerGraph} {s : Nat}
    (hval : edgesValid g) (hs : s < g.nodes.length) (m : Nat) :
    reachIn g s m ⊆ reachIn g s g.nodes.length := by
  have hstab : ∃ j ≤ g.nodes.length,
      reachIn g s (j + 1) = reachIn g s j := by
    by_contra hc
    push_neg at hc
    have hgrow := reachIn_card_grows (g := g) (s := s) g.nodes.length
      (fun i hi => hc i (by omega))
    have hle := Finset.card_le_card (reachIn_subset_range hval hs g.nodes.length)
    rw [Finset.card_range] at hle
    omega
  obtain ⟨j, hj, hstabj⟩ := hstab
  by_cases hm : m ≤ g.nodes.length
  · exact reachIn_mono hm
  · have h1 : reachIn g s m = reachIn g s j := by
      have : m = j + (m - j) := by omega
      rw [this]
      exact reachIn_stab_step hstabj (m - j)
    rw [h1]
    exact reachIn_mono hj

theorem searchFirst_none {p : Nat → Bool} :
    ∀ {bound : Nat}, searchFirst p bound = none → ∀ k < bound, p k = false := by
  intro bound
  induction bound with
  | zero => intro _ k hk; omega
  | succ n ih =>
      intro h k hk
      rw [searchFirst] at h
      cases hrec : searchFirst p n with
      | some m' => rw [hrec] at h; simp at h
      | none =>
          rw [hrec] at h
          by_cases hp : p n = true
          · rw [if_pos hp] at h; simp at h
          · by_cases hkn : k < n
            · exact ih hrec k hkn
            · have : k = n := by omega
              subst this
              exact Bool.not_eq_true _ |>.mp hp

theorem searchFirst_some {p : Nat → Bool} :
    ∀ {bound m : Nat}, searchFirst p bound = some m →
      p m = true ∧ m < bound ∧ ∀ k < m, p k = false := by
  intro bound
  induction bound with
  | zero => intro m h; simp [searchFirst] at h
  | succ n ih =>
      intro m h
      rw [searchFirst] at h
      cases hrec : searchFirst p n with
      | some m' =>
          rw [hrec] at h
          injection h with h'
          subst h'
          obtain ⟨h1, h2, h3⟩ := ih hrec
          exact ⟨h1, by omega, h3⟩
      | none =>
          rw [hrec] at h
          by_cases hp : p n = true
          · rw [if_pos hp] at h
            injection h with h'
            subst h'
            exact ⟨hp, by omega, searchFirst_none hrec⟩
          · rw [if_neg hp] at h
            simp at h

theorem searchFirst_complete {p : Nat → Bool} :
    ∀ {bound m : Nat}, p m = true → m < bound → (∀ k < m, p k = false) →
      searchFirst p bound = some m := by
  intro bound
  induction bound with
  | zero => intro m _ h; omega
  | succ n ih =>
      intro m hp hm hmin
      rw [searchFirst]
      by_cases hmn : m < n
      · rw [ih hp hmn hmin]
      · have hmeq : m = n := by omega
        subst hmeq
        have hnone : searchFirst p m = none := by
          cases hres : searchFirst p m with
          | none => rfl
          | some m2 =>
              obtain ⟨hp2, hlt2, _⟩ := searchFirst_some hres
              rw [hmin m2 hlt2] at hp2
              simp at hp2
        rw [hnone, if_pos hp]

theorem searchFirst_none_complete {p : Nat → Bool} :
    ∀ {bound : Nat}, (∀ k < bound, p k = false) → searchFirst p bound = none := by
  intro bound
  induction bound with
  | zero => intro _; rfl
  | succ n ih =>
      intro h
      rw [searchFirst, ih (fun k hk => h k (by omega)),
        if_neg (by rw [h n (by omega)]; simp)]

theorem distOpt_some_iff {g : PlayerGraph} {s t m : Nat}
    (hval : edgesValid g) (hs : s < g.nodes.length) :
    distOpt g s t = some m ↔
      (t ∈ reachIn g s m ∧ ∀ k < m, t ∉ reachIn g s k) := by
  constructor
  · intro h
    obtain ⟨h1, _, h3⟩ := searchFirst_some h
    refine ⟨of_decide_eq_true h1, ?_⟩
    intro k hk hmem
    have := h3 k hk
    rw [decide_eq_false_iff_not] at this
    exact this hmem
  · rintro ⟨hmem, hmin⟩
    apply searchFirst_complete
    · exact decide_eq_true hmem
    · -- the minimal radius is at most the node count
      have habs : t ∈ reachIn g s g.nodes.length := reachIn_absorb hval hs m hmem
      by_contra hc
      push_neg at hc
      have hVlt : g.nodes.length < m := by omega
      exact hmin _ hVlt habs
    · intro k hk
      rw [decide_eq_false_iff_not]
      exact hmin k hk

theorem distOpt_none_iff {g : PlayerGraph} {s t : Nat}
    (hval : edgesValid g) (hs : s < g.nodes.length) :
    distOpt g s t = none ↔ ¬ Reachable g s t := by
  constructor
  · intro h hre
    obtain ⟨n, hw⟩ := hre
    have hmem : t ∈ reachIn g s n := mem_reachIn_iff_walk.mpr ⟨n, le_refl _, hw⟩
    have habs : t ∈ reachIn g s g.nodes.length := reachIn_absorb hval hs n hmem
    have := searchFirst_none h g.nodes.length (by omega)
    rw [decide_eq_false_iff_not] at this
    exact this habs
  · intro hnr
    apply searchFirst_none_complete
    intro k _
    rw [decide_eq_false_iff_not]
    intro hmem
    obtain ⟨m', _, hw⟩ := mem_reachIn_iff_walk.mp hmem
    exact hnr ⟨m', hw⟩

theorem distOpt_isSome_iff {g : PlayerGraph} {s t : Nat}
    (hval : edgesValid g) (hs : s < g.nodes.length) :
    (distOpt g s t).isSome = true ↔ Reachable g s t := by
  cases h : distOpt g s t with
  | none =>
      simp only [Option.isSome_none]
      constructor
      · intro h'; simp at h'
      · intro hre; exact absurd hre ((distOpt_none_iff hval hs).mp h)
  | some m =>
      simp only [Option.isSome_some]
      constructor
      · intro _
        obtain ⟨hmem, _⟩ := (distOpt_some_iff hval hs).mp h
        obtain ⟨m', _, hw⟩ := mem_reachIn_iff_walk.mp hmem
        exact ⟨m', hw⟩
      · intro _; trivial

theorem distOpt_eq_of_min {g : PlayerGraph} {s t m : Nat}
    (hval : edgesValid g) (hs : s < g.nodes.length)
    (hwalk : Walk g s t m) (hmin : ∀ k, Walk g s t k → m ≤ k) :
    distOpt g s t = some m := by
  apply (distOpt_some_iff hval hs).mpr
  refine ⟨mem_reachIn_iff_walk.mpr ⟨m, le_refl _, hwalk⟩, ?_⟩
  intro k hk hmem
  obtain ⟨m', hm', hw⟩ := mem_reachIn_iff_walk.mp hmem
  have := hmin m' hw
  omega

theorem filterMap_length_countP {α β : Type} (f : α → Option β) (l : List α) :
    (l.filterMap f).length = l.countP (fun a => (f a).isSome) := by
  induction l with
  | nil => rfl
  | cons a rest ih =>
      rw [List.countP_cons]
      cases h : f a with
      | none =>
          rw [List.filterMap_cons_none h, ih]
          simp
      | some b =>
          rw [List.filterMap_cons_some h, List.length_cons, ih]
          simp

theorem dijkstra_snd (g : PlayerGraph) (s : Nat) :
    (dijkstraResult g s).map (fun r => r.2) =
      (List.range g.nodes.length).filterMap (fun t => distOpt g s t) := by
  unfold dijkstraResult
  generalize List.range g.nodes.length = l
  induction l with
  | nil => rfl
  | cons t rest ih =>
      cases h : distOpt g s t with
      | none =>
          have hf : (fun t0 => Option.map (fun d => (t0, d)) (distOpt g s t0)) t
              = none := by
            show Option.map (fun d => (t, d)) (distOpt g s t) = none
            rw [h]; rfl
          rw [List.filterMap_cons_none
            (f := fun t0 => Option.map (fun d => (t0, d)) (distOpt g s t0)) hf,
            List.filterMap_cons_none h, ih]
      | some m =>
          have hf : (fun t0 => Option.map (fun d => (t0, d)) (distOpt g s t0)) t
              = some (t, m) := by
            show Option.map (fun d => (t, d)) (distOpt g s t) = some (t, m)
            rw [h]; rfl
          rw [List.filterMap_cons_some
            (f := fun t0 => Option.map (fun d => (t0, d)) (distOpt g s t0)) hf,
            List.filterMap_cons_some h, List.map_cons, ih]

theorem filterMap_sum (f : Nat → Option Nat) (l : List Nat) :
    (l.filterMap f).sum = (l.map (fun t => (f t).getD 0)).sum := by
  induction l with
  | nil => rfl
  | cons a rest ih =>
      rw [List.map_cons, List.sum_cons]
      cases h : f a with
      | none => rw [List.filterMap_cons_none h, ih]; simp
      | some b => rw [List.filterMap_cons_some h, List.sum_cons, ih]; simp

theorem sum_map_range (h : Nat → Nat) (n : Nat) :
    ((List.range n).map h).sum = ∑ t in Finset.range n, h t := by
  induction n with
  | zero => rfl
  | succ k ih =>
      rw [List.range_succ, List.map_append, List.sum_append,
        Finset.sum_range_succ, ih]
      simp

theorem countP_range_card (p : Nat → Bool) (n : Nat) :
    ((Finset.range n).filter (fun t => p t = true)).card =
      (List.range n).countP p := by
  induction n with
  | zero => rfl
  | succ k ih =>
      rw [Finset.range_succ, Finset.filter_insert, List.range_succ,
        List.countP_append]
      by_cases hp : p k = true
      · rw [if_pos hp, Finset.card_insert_of_not_mem (by
          intro hmem
          exact absurd (Finset.mem_of_mem_filter _ hmem)
            (by simp)), ih]
        simp [List.countP_cons, hp]
      · rw [if_neg hp, ih]
        simp [List.countP_cons, hp]

/-- C4: `compute_centrality` returns one entry per node (in node order,
with the node's name), and each node's score is `(|R| - 1) / S` when
`S > 0` and `0` otherwise, where `R` is the set of nodes reachable from it
(itself included, every edge cost 1 regardless of stored weight) and `S`
the sum of the unit-cost distances to the other nodes of `R`.  `R` and the
distance function `d` are characterized abstractly by the hypotheses:
membership in `R` is reachability by walks, and `d t` is the minimal walk
length.  Isolated nodes and single-node graphs fall into the `S = 0`
branch and score 0. -/
theorem compute_centrality_closeness_spec (g : PlayerGraph)
    (hval : edgesValid g) (hnd : g.nodes.Nodup) :
    (compute_centrality g).length = g.nodes.length ∧
    ∀ i, i < g.nodes.length →
    ∀ (R : Finset Nat) (d : Nat → Nat),
      (∀ t, t ∈ R ↔ (t < g.nodes.length ∧ Reachable g i t)) →
      (∀ t, Reachable g i t →
        Walk g i t (d t) ∧ ∀ m, Walk g i t m → d t ≤ m) →
      (compute_centrality g).get? i =
        some (nameAt g i,
          if 0 < ∑ t in R.erase i, d t
          then ((R.card - 1 : Nat) : ℚ) / ((∑ t in R.erase i, d t : Nat) : ℚ)
          else 0) := by
  constructor
  · unfold compute_centrality
    rw [List.length_map, List.length_range]
  · intro i hi R d hR hd
    have hRfilter : R = (Finset.range g.nodes.length).filter
        (fun t => (distOpt g i t).isSome = true) := by
      apply Finset.ext
      intro t
      rw [Finset.mem_filter, Finset.mem_range, hR, distOpt_isSome_iff hval hi]
    have hlen : (dijkstraResult g i).length = R.card := by
      unfold dijkstraResult
      rw [filterMap_length_countP, hRfilter, countP_range_card]
      apply List.countP_congr
      intro t _
      cases h : distOpt g i t with
      | none => simp [h]
      | some m => simp [h]
    have hdi : d i = 0 := by
      have hrei : Reachable g i i := ⟨0, Walk.nil i⟩
      have := (hd i hrei).2 0 (Walk.nil i)
      omega
    have hsum : ((dijkstraResult g i).map (fun r => r.2)).sum =
        ∑ t in R.erase i, d t := by
      rw [dijkstra_snd, filterMap_sum, sum_map_range]
      have h1 : ∑ t in Finset.range g.nodes.length, (distOpt g i t).getD 0 =
          ∑ t in R, (distOpt g i t).getD 0 := by
        apply (Finset.sum_subset ?_ ?_).symm
        · intro t ht
          exact Finset.mem_range.mpr ((hR t).mp ht).1
        · intro t ht htR
          have hnr : ¬ Reachable g i t := by
            intro hre
            exact htR ((hR t).mpr ⟨Finset.mem_range.mp ht, hre⟩)
          rw [(distOpt_none_iff hval hi).mpr hnr]
          rfl
      rw [h1]
      have h2 : ∑ t in R, (distOpt g i t).getD 0 = ∑ t in R, d t := by
        apply Finset.sum_congr rfl
        intro t ht
        have hre : Reachable g i t := ((hR t).mp ht).2
        obtain ⟨hw, hmin⟩ := hd t hre
        rw [distOpt_eq_of_min hval hi hw hmin]
        rfl
      rw [h2]
      exact (Finset.sum_erase R hdi).symm
    unfold compute_centrality
    rw [List.get?_map, List.get?_range hi, Option.map_some']
    dsimp only
    rw [hlen, hsum]

/-- Witness for C4 at the single-node graph: its one node scores 0. -/
theorem compute_centrality_closeness_spec_witness :
    edgesValid (PlayerGraph.mk ["Alice"] []) ∧
    (PlayerGraph.mk ["Alice"] []).nodes.Nodup ∧
    (compute_centrality (PlayerGraph.mk ["Alice"] [])).get? 0 =
      some ("Alice", 0) := by
  have hval : edgesValid (PlayerGraph.mk ["Alice"] []) := by
    intro e he
    simp at he
  have hnd : (PlayerGraph.mk ["Alice"] []).nodes.Nodup := by simp
  refine ⟨hval, hnd, ?_⟩
  have hRchar : ∀ t, t ∈ ({0} : Finset Nat) ↔
      (t < (PlayerGraph.mk ["Alice"] []).nodes.length ∧
        Reachable (PlayerGraph.mk ["Alice"] []) 0 t) := by
    intro t
    rw [Finset.mem_singleton]
    constructor
    · rintro rfl
      exact ⟨by decide, ⟨0, Walk.nil 0⟩⟩
    · rintro ⟨ht, _⟩
      have : (PlayerGraph.mk ["Alice"] []).nodes.length = 1 := rfl
      omega
  have hdchar : ∀ t, Reachable (PlayerGraph.mk ["Alice"] []) 0 t →
      Walk (PlayerGraph.mk ["Alice"] []) 0 t ((fun _ => 0) t) ∧
      ∀ m, Walk (PlayerGraph.mk ["Alice"] []) 0 t m → (fun _ => 0) t ≤ m := by
    intro t hre
    obtain ⟨n, hw⟩ := hre
    cases hw with
    | nil => exact ⟨Walk.nil 0, fun m _ => Nat.zero_le m⟩
    | cons hadj _ =>
        obtain ⟨e, he, _⟩ := hadj
        simp at he
  have h := (compute_centrality_closeness_spec (PlayerGraph.mk ["Alice"] [])
    hval hnd).2 0 (by decide) {0} (fun _ => 0) hRchar hdchar
  rw [h]
  have hs : (∑ t in ({0} : Finset Nat).erase 0, (fun _ => 0 : Nat → Nat) t) = 0 := by
    simp
  rw [hs]
  simp [nameAt]
